import Mathlib

/-!
# Shell-CMDLINE: command parser and job registry

A shallow embedding of `CommandParser` (`src/CommandParser.cpp`), of the
`fg`, `jobs` and `echo` built-ins (`src/BuiltinCommands.cpp`), of
`CommandExecutor` (`src/CommandExecutor.cpp`) as the parent process sees it,
and of the history and reaping steps of `Shell` (`src/shell.cpp`), with the
properties of variable expansion, of the operator pass, of the job registry
and of the executor proved about it.

A `std::string` is a list of characters, a `std::vector` a list, a
`std::map<string,string>` and the process environment are lookup functions.
-/

namespace Shell

/-- A `std::string`, character by character. -/
abbrev Str := List Char

/-- A lookup table from names to values: `getenv` for the process
environment, `std::map::find` for the shell-local variable map. -/
abbrev VarMap := Str → Option Str

/-! ## CommandParser::expandVariables -/

/-- The test `std::isalnum(c) || c == '_'` of the name scan (C locale: the
ASCII letters and digits; no character outside ASCII passes it). -/
def isNameChar (c : Char) : Bool := c.isAlphanum || c == '_'

/-- Index of the first `'$'` of `s`, if any. -/
def findDollar : Str → Option Nat
  | [] => none
  | c :: cs => if c = '$' then some 0 else (findDollar cs).map (· + 1)

/-- The call `result.find('$', pos)`: the first index `≥ pos` holding `'$'`,
`none` for `std::string::npos`. -/
def find (result : Str) (pos : Nat) : Option Nat :=
  (findDollar (result.drop pos)).map (· + pos)

/-- The inner `while` loop: starting from `start`, advance `end` over name
characters while `end < result.length()`. -/
def scanName (result : Str) (start : Nat) : Nat :=
  start + ((result.drop start).takeWhile isNameChar).length

/-- The call `s.substr(start, n)`. -/
def substr (s : Str) (start n : Nat) : Str := (s.drop start).take n

/-- The call `s.replace(pos, n, v)`. -/
def replace (s : Str) (pos n : Nat) (v : Str) : Str :=
  s.take pos ++ v ++ s.drop (pos + n)

/-- Resolution of a variable name: the environment first, then the shell
variable map, and the empty string when neither has it. -/
def lookupVar (env vars : VarMap) (varName : Str) : Str :=
  match env varName with
  | some envValue => envValue
  | none =>
    match vars varName with
    | some v => v
    | none => []

/-- The two local variables of the expansion loop that survive an iteration. -/
structure ExpandState where
  result : Str
  pos : Nat
deriving DecidableEq, Repr

/-- One iteration of the outer `while` loop of `expandVariables`: `none` when
`find` returns `npos` (the loop exits), otherwise the state after the body. -/
def expandStep (env vars : VarMap) (st : ExpandState) : Option ExpandState :=
  match find st.result st.pos with
  | none => none
  | some pos =>
    let start := pos + 1
    let «end» := scanName st.result start
    if «end» > start then
      let varName := substr st.result start («end» - start)
      let varValue := lookupVar env vars varName
      some { result := replace st.result pos («end» - pos) varValue,
             pos := pos + varValue.length }
    else
      some { result := st.result, pos := pos + 1 }

/-- Characters from the scan position to the end of the working string. -/
def remaining (st : ExpandState) : Nat := st.result.length - st.pos

theorem findDollar_lt {s : Str} {i : Nat} (h : findDollar s = some i) : i < s.length := by
  induction s generalizing i with
  | nil => simp [findDollar] at h
  | cons c cs ih =>
    simp only [findDollar] at h
    split at h
    · simp at h; subst h; simp
    · cases hf : findDollar cs with
      | none => simp [hf] at h
      | some j =>
        simp [hf] at h
        subst h
        have := ih hf
        simp; omega

theorem find_bounds {s : Str} {pos i : Nat} (h : find s pos = some i) :
    pos ≤ i ∧ i < s.length := by
  unfold find at h
  cases hf : findDollar (s.drop pos) with
  | none => simp [hf] at h
  | some j =>
    simp [hf] at h
    have := findDollar_lt hf
    simp at this
    omega

theorem scanName_le (s : Str) (start : Nat) (h : start ≤ s.length) :
    scanName s start ≤ s.length := by
  unfold scanName
  have := (List.takeWhile_sublist isNameChar (l := s.drop start)).length_le
  simp at this
  omega

theorem expandStep_remaining {env vars : VarMap} {st st' : ExpandState}
    (h : expandStep env vars st = some st') : remaining st' < remaining st := by
  unfold expandStep at h
  cases hf : find st.result st.pos with
  | none => simp [hf] at h
  | some p =>
    simp only [hf] at h
    obtain ⟨h1, h2⟩ := find_bounds hf
    have h3 := scanName_le st.result (p + 1) (by omega)
    split at h
    · rename_i hgt
      simp at h
      subst h
      simp only [remaining, replace, List.length_append, List.length_take, List.length_drop]
      have : p + (scanName st.result (p + 1) - p) = scanName st.result (p + 1) := by omega
      rw [this]
      omega
    · simp at h
      subst h
      simp only [remaining]
      omega

/-- The outer `while` loop of `expandVariables`, run from a given state until
`find` returns `npos`. -/
def expandLoop (env vars : VarMap) (st : ExpandState) : Str :=
  match _h : expandStep env vars st with
  | none => st.result
  | some st' => expandLoop env vars st'
termination_by remaining st
decreasing_by exact expandStep_remaining (by assumption)

/-- `CommandParser::expandVariables`: the loop started on a copy of the input
at position 0. -/
def expandVariables (env vars : VarMap) (input : Str) : Str :=
  expandLoop env vars { result := input, pos := 0 }

/-- What the reference walk emits at the end of a name: the resolved value,
or the `'$'` itself when the name is empty. -/
def emitName (env vars : VarMap) (n : Str) : Str :=
  if n = [] then ['$'] else lookupVar env vars n

/-- Reference expander, following the specification: one walk over the
original characters, left to right. `pending = none` outside a reference;
`pending = some n` after a `'$'`, with `n` the name characters read so far.
A character outside a reference is copied; at the end of a maximal name the
resolved value is emitted, and a `'$'` with no name character after it is
copied as it stands. -/
def refExpand (env vars : VarMap) : Option Str → Str → Str
  | none, [] => []
  | some n, [] => emitName env vars n
  | none, c :: cs =>
    if c = '$' then refExpand env vars (some []) cs else c :: refExpand env vars none cs
  | some n, c :: cs =>
    if isNameChar c then refExpand env vars (some (n ++ [c])) cs
    else
      emitName env vars n ++
        (if c = '$' then refExpand env vars (some []) cs else c :: refExpand env vars none cs)

/-! ## CommandParser::tokenize and CommandParser::parse -/

/-- The test `std::isspace` (C locale) that `operator>>` uses to split words. -/
def isSpace (c : Char) : Bool :=
  c == ' ' || c == '\t' || c == '\n' || c == Char.ofNat 11 || c == Char.ofNat 12 || c == '\r'

/-- The loop `while (iss >> token) tokens.push_back(token)`, with the word
being read carried in `token`. -/
def tokenizeAux : Str → Str → List Str
  | token, [] => if token = [] then [] else [token]
  | token, c :: cs =>
    if isSpace c then
      if token = [] then tokenizeAux [] cs else token :: tokenizeAux [] cs
    else tokenizeAux (token ++ [c]) cs

/-- `CommandParser::tokenize`: the maximal runs of non-space characters. -/
def tokenize (input : Str) : List Str := tokenizeAux [] input

/-- The struct `ParsedCommand`. -/
structure ParsedCommand where
  args : List Str
  inputFile : Str
  outputFile : Str
  appendOutput : Bool
  background : Bool
  hasPipe : Bool
  pipeCommand : List Str
deriving DecidableEq, Repr

/-- The default constructor `ParsedCommand()`. -/
def ParsedCommand.init : ParsedCommand :=
  { args := [], inputFile := [], outputFile := [], appendOutput := false,
    background := false, hasPipe := false, pipeCommand := [] }

/-- The token `"<"`. -/
def tokLt : Str := ['<']
/-- The token `">"`. -/
def tokGt : Str := ['>']
/-- The token `">>"`. -/
def tokGtGt : Str := ['>', '>']
/-- The token `"|"`. -/
def tokPipe : Str := ['|']
/-- The token `"&"`. -/
def tokAmp : Str := ['&']

/-- The inner loop `for (j = i + 1; j < tokens.size(); j++)` over the tokens
after a pipe. -/
def pipeSection : List Str → ParsedCommand → ParsedCommand
  | [], cmd => cmd
  | t :: ts, cmd =>
    if t = tokAmp then pipeSection ts { cmd with background := true }
    else pipeSection ts { cmd with pipeCommand := cmd.pipeCommand ++ [t] }

/-- The loop `for (i = 0; i < tokens.size(); i++)` of `parse`, on the tokens
from index `i` on. The case of one token is the one where
`i + 1 < tokens.size()` is false. -/
def parseLoop : List Str → ParsedCommand → ParsedCommand
  | [], cmd => cmd
  | [t], cmd =>
    if t = tokAmp then { cmd with background := true }
    else { cmd with args := cmd.args ++ [t] }
  | t :: f :: rest, cmd =>
    if t = tokLt then parseLoop rest { cmd with inputFile := f }
    else if t = tokGt then parseLoop rest { cmd with outputFile := f, appendOutput := false }
    else if t = tokGtGt then parseLoop rest { cmd with outputFile := f, appendOutput := true }
    else if t = tokPipe then pipeSection (f :: rest) { cmd with hasPipe := true }
    else if t = tokAmp then parseLoop (f :: rest) { cmd with background := true }
    else parseLoop (f :: rest) { cmd with args := cmd.args ++ [t] }

/-- The operator pass of `parse` on a token list. -/
def parseTokens (tokens : List Str) : ParsedCommand := parseLoop tokens ParsedCommand.init

/-- `CommandParser::parse`: expand, tokenize, then the operator pass. -/
def parse (env vars : VarMap) (commandLine : Str) : ParsedCommand :=
  parseTokens (tokenize (expandVariables env vars commandLine))

/-- A token is one of the operators `<`, `>`, `>>`, `|`, `&` of the pass. -/
def isOperator (t : Str) : Bool :=
  t == tokLt || t == tokGt || t == tokGtGt || t == tokPipe || t == tokAmp

/-- A token is a redirection operator `<`, `>` or `>>`. -/
def isRedirect (t : Str) : Bool := t == tokLt || t == tokGt || t == tokGtGt

/-- The loop of `parse`, run over `pre` with at least one further token after
it, visits the token right after `pre` with its own index `i`: no pipe was
recognized inside `pre` (no `break`), and the last step did not take that
token as a file name with `++i`. -/
def reachesNext : List Str → Bool
  | [] => true
  | [t] => !(isRedirect t) && !(t == tokPipe)
  | t :: f :: rest =>
    if isRedirect t then reachesNext rest
    else if t == tokPipe then false
    else reachesNext (f :: rest)

/-- The loop of `parse`, run over `pre` with at least one further token after
it, takes the token right after `pre` as the file name of a redirection: no
pipe was recognized inside `pre`, and the last token of `pre` is met as a
redirection operator, whose `++i` skips the next token. -/
def consumesNext : List Str → Bool
  | [] => false
  | [t] => isRedirect t
  | t :: f :: rest =>
    if isRedirect t then consumesNext rest
    else if t == tokPipe then false
    else consumesNext (f :: rest)

/-! ## BuiltinCommands::fgCommand -/

/-- A process identifier (`pid_t`). -/
abbrev Pid := Int

/-- A value of type `int`: the integer reduced to the 32-bit two's-complement
range. -/
def toInt32 (x : Int) : Int := (x + 2 ^ 31) % 2 ^ 32 - 2 ^ 31

/-- The value of a run of decimal digits. -/
def digitsValue (ds : Str) : Nat :=
  ds.foldl (fun acc c => 10 * acc + (c.toNat - '0'.toNat)) 0

/-- The call `std::stoi(s)`: leading white space is skipped, then an optional
sign and a maximal run of decimal digits are read, and what follows is
ignored. `none` stands for the exception thrown when there is no digit
(`std::invalid_argument`) or the value is not an `int` (`std::out_of_range`). -/
def stoi (s : Str) : Option Int :=
  let body := s.dropWhile isSpace
  let signed : Bool × Str :=
    match body with
    | '-' :: r => (true, r)
    | '+' :: r => (false, r)
    | _ => (false, body)
  let ds := signed.2.takeWhile Char.isDigit
  if ds = [] then none
  else
    let v : Int := if signed.1 then -(digitsValue ds : Int) else (digitsValue ds : Int)
    if v < -(2 ^ 31) ∨ 2 ^ 31 - 1 < v then none else some v

/-- What one call of `fgCommand` does: the registry it leaves, the process it
blocks on with `waitpid(pid, &status, 0)` (if any), and the text written to
standard output and to standard error. -/
structure FgOutcome where
  bgProcesses : List Pid
  waited : Option Pid
  out : List String
  err : List String
deriving DecidableEq, Repr

/-- An early `return` of `fgCommand` after an error message. -/
def fgError (bgProcesses : List Pid) (msg : String) : FgOutcome :=
  { bgProcesses := bgProcesses, waited := none, out := [], err := [msg] }

/-- The tail of `fgCommand` once `pid` was taken out of the registry: the
announcement, the blocking wait, and the message when the wait fails.
`waitError pid` is `some e` when `waitpid` returns `-1`, with `e` the text of
`strerror(errno)`. -/
def fgWait (waitError : Pid → Option String) (pid : Pid) (bgProcesses : List Pid) :
    FgOutcome :=
  { bgProcesses := bgProcesses,
    waited := some pid,
    out := ["Bringing process " ++ toString pid ++ " to foreground\n"],
    err :=
      match waitError pid with
      | some e => ["MyShell: fg: failed to wait for process " ++ toString pid ++ ": " ++ e ++ "\n"]
      | none => [] }

/-- `BuiltinCommands::fgCommand` on the argument vector `args` and the job
registry `bgProcesses`. `jobNum` and `static_cast<int>(bgProcesses.size())`
are values of type `int`, taken in 32-bit two's complement. The result is
`none` where the source reads `args[1]` of an empty argument vector. -/
def fgCommand (waitError : Pid → Option String) (args : List Str) (bgProcesses : List Pid) :
    Option FgOutcome :=
  if h : bgProcesses = [] then
    some (fgError bgProcesses "MyShell: fg: no background jobs\n")
  else if args.length = 1 then
    some (fgWait waitError (bgProcesses.getLast h) bgProcesses.dropLast)
  else
    match args[1]? with
    | none => none
    | some a =>
      match stoi a with
      | none => some (fgError bgProcesses "MyShell: fg: invalid job number\n")
      | some n =>
        let jobNum := toInt32 (n - 1)
        if jobNum < 0 ∨ jobNum ≥ toInt32 (bgProcesses.length : Int) then
          some (fgError bgProcesses "MyShell: fg: job not found\n")
        else
          match bgProcesses[jobNum.toNat]? with
          | none => none
          | some pid => some (fgWait waitError pid (bgProcesses.eraseIdx jobNum.toNat))

/-- The job registries that the shell can hold. An entry is the pid returned
by a successful `fork()`, a positive value of the 32-bit type `pid_t`, pushed
once; it leaves the registry when the process is reaped or brought to the
foreground, so no entry is ever duplicated. -/
def validRegistry (r : List Pid) : Prop :=
  r.Nodup ∧ ∀ p ∈ r, 0 < p ∧ p < 2 ^ 31

/-! ## BuiltinCommands::jobsCommand -/

/-- What a non-blocking `waitpid(pid, &status, WNOHANG)` reports: its return
value, and the exit status when `WIFEXITED(status)` holds. -/
structure Probe where
  result : Int
  exited : Option Nat
deriving DecidableEq, Repr

/-- One row of the listing of `jobsCommand`: the position printed between
brackets, the process identifier, and whether the probe returned `0`. -/
structure JobRow where
  position : Nat
  pid : Pid
  running : Bool
deriving DecidableEq, Repr

/-- The loop `for (i = 0; i < bgProcesses.size(); i++)` of `jobsCommand` on the
entries from index `i` on: entry `i` is listed at position `i + 1`.
`waitpid i pid` is the answer to the probe of the entry at index `i`. -/
def jobsRows (waitpid : Nat → Pid → Probe) : Nat → List Pid → List JobRow
  | _, [] => []
  | i, pid :: rest =>
    { position := i + 1, pid := pid, running := decide ((waitpid i pid).result = 0) } ::
      jobsRows waitpid (i + 1) rest

/-- The line that `jobsCommand` prints for a row. -/
def JobRow.render (row : JobRow) : String :=
  "[" ++ toString row.position ++ "] " ++ toString row.pid ++
    (if row.running then " Running\n" else " Done\n")

/-- `BuiltinCommands::jobsCommand`: the text written to standard output. The
registry is not changed. -/
def jobsCommand (waitpid : Nat → Pid → Probe) (bgProcesses : List Pid) : List String :=
  if bgProcesses = [] then ["No background jobs\n"]
  else "Background Jobs:\n" :: (jobsRows waitpid 0 bgProcesses).map JobRow.render

/-! ## CommandExecutor::execute and CommandExecutor::executeWithPipe -/

/-- What the operating system answers during one call of `execute`: whether
the executor has its `ioHandler`, the result of `createPipe`, the return
values of the first and of the second call of `fork()` as the calling process
sees them (`-1` failure, `0` in the child, otherwise the child's pid), the
text of `strerror(errno)`, and for a blocking wait the error text when
`waitpid` returns `-1`. -/
structure Os where
  ioHandler : Bool
  createPipe : Bool
  fork1 : Int
  fork2 : Int
  strerror : String
  waitError : Pid → Option String

/-- What a forked child does before it is replaced by the program: the end of
the pipe it is wired to (`some true` writer, `some false` reader), the
redirections it sets up (an empty name means none), and the argument vector
passed to `execvp`. -/
structure ChildPlan where
  pipeEnd : Option Bool
  inputFile : Str
  outputFile : Str
  appendOutput : Bool
  argv : List Str
deriving DecidableEq, Repr

/-- The outcome of `execute` in the process that called `fork()`: either the
call returns in the parent, leaving a job registry, the pids it blocked on
with `waitpid(pid, &status, 0)` and the text written to standard output and
standard error; or the process is a child and carries out its plan. -/
inductive ExecResult where
  | parent (bgProcesses : List Pid) (waited : List Pid) (out err : List String)
  | child (plan : ChildPlan)
deriving DecidableEq, Repr

/-- The text `arg << " "` written for every argument. -/
def spaced (args : List Str) : String :=
  String.join (args.map (fun a => String.mk a ++ " "))

/-- `CommandExecutor::executeWithPipe`. -/
def executeWithPipe (os : Os) (cmd : ParsedCommand) (bgProcesses : List Pid) : ExecResult :=
  if !os.ioHandler || cmd.args.isEmpty || cmd.pipeCommand.isEmpty then
    .parent bgProcesses [] [] ["MyShell Error: Invalid pipe command\n"]
  else if !os.createPipe then
    .parent bgProcesses [] [] ["MyShell Error: Failed to create pipe: " ++ os.strerror ++ "\n"]
  else
    let pid1 := os.fork1
    if pid1 = -1 then
      .parent bgProcesses [] []
        ["MyShell Error: Failed to fork first process (" ++ os.strerror ++ ")\n"]
    else if pid1 = 0 then
      .child { pipeEnd := some true, inputFile := cmd.inputFile, outputFile := [],
               appendOutput := false, argv := cmd.args }
    else
      let pid2 := os.fork2
      if pid2 = -1 then
        .parent bgProcesses [] []
          ["MyShell Error: Failed to fork second process (" ++ os.strerror ++ ")\n"]
      else if pid2 = 0 then
        .child { pipeEnd := some false, inputFile := [], outputFile := cmd.outputFile,
                 appendOutput := cmd.appendOutput, argv := cmd.pipeCommand }
      else if cmd.background then
        .parent (bgProcesses ++ [pid1] ++ [pid2]) []
          ["[Background] Pipe processes " ++ toString pid1 ++ " | " ++ toString pid2 ++
            " started\n"] []
      else
        .parent bgProcesses [pid1, pid2] [] []

/-- `CommandExecutor::execute`. -/
def execute (os : Os) (cmd : ParsedCommand) (bgProcesses : List Pid) : ExecResult :=
  if cmd.args.isEmpty then .parent bgProcesses [] [] []
  else if cmd.hasPipe then executeWithPipe os cmd bgProcesses
  else
    let pid := os.fork1
    if pid = -1 then
      .parent bgProcesses [] [] ["MyShell Error: Failed to fork process (" ++ os.strerror ++ ")\n"]
    else if pid = 0 then
      .child { pipeEnd := none, inputFile := cmd.inputFile, outputFile := cmd.outputFile,
               appendOutput := cmd.appendOutput, argv := cmd.args }
    else if cmd.background then
      .parent (bgProcesses ++ [pid]) []
        ["[Background] Process " ++ toString pid ++ " started: " ++ spaced cmd.args ++ "\n"] []
    else
      .parent bgProcesses [pid] []
        (match os.waitError pid with
          | some e => ["MyShell Error: waitpid failed (" ++ e ++ ")\n"]
          | none => [])

/-! ## cleanupBackgroundProcesses -/

/-- The state of the loop of `cleanupBackgroundProcesses`: the vector, the
position of the iterator `it`, the pids passed to `waitpid` so far, in call
order, and the text written to standard output. -/
structure ReapState where
  bgProcesses : List Pid
  it : Nat
  probed : List Pid
  out : List String
deriving DecidableEq, Repr

/-- One iteration of `while (it != backgroundProcesses.end())`: `none` when
the iterator is at the end. `waitpid k pid` is the answer to the probe number
`k` of this call, made on `pid`; `completed` is the text written for a
finished process. `erase(it)` leaves the iterator on the next element, which
then has the index the erased one had. -/
def reapStep (completed : Pid → Probe → String) (waitpid : Nat → Pid → Probe)
    (st : ReapState) : Option ReapState :=
  match st.bgProcesses[st.it]? with
  | none => none
  | some pid =>
    let probe := waitpid st.probed.length pid
    if probe.result > 0 then
      some { bgProcesses := st.bgProcesses.eraseIdx st.it, it := st.it,
             probed := st.probed ++ [pid], out := st.out ++ [completed pid probe] }
    else if probe.result = -1 then
      some { bgProcesses := st.bgProcesses.eraseIdx st.it, it := st.it,
             probed := st.probed ++ [pid], out := st.out }
    else
      some { bgProcesses := st.bgProcesses, it := st.it + 1,
             probed := st.probed ++ [pid], out := st.out }

/-- Entries from the iterator to the end of the vector. -/
def ReapState.ahead (st : ReapState) : Nat := st.bgProcesses.length - st.it

theorem reapStep_ahead {completed : Pid → Probe → String} {waitpid : Nat → Pid → Probe}
    {st st' : ReapState} (h : reapStep completed waitpid st = some st') :
    st'.ahead < st.ahead := by
  unfold reapStep at h
  cases hg : st.bgProcesses[st.it]? with
  | none => simp [hg] at h
  | some pid =>
    have hlt : st.it < st.bgProcesses.length := by
      by_contra hc
      have := List.getElem?_eq_none (Nat.le_of_not_lt hc)
      rw [this] at hg
      cases hg
    simp only [hg] at h
    split at h
    · cases h
      simp only [ReapState.ahead, List.length_eraseIdx, hlt, if_true]
      omega
    · split at h
      · cases h
        simp only [ReapState.ahead, List.length_eraseIdx, hlt, if_true]
        omega
      · cases h
        simp only [ReapState.ahead]
        omega

/-- The loop of `cleanupBackgroundProcesses`, run from a given state until the
iterator reaches the end. -/
def reapLoop (completed : Pid → Probe → String) (waitpid : Nat → Pid → Probe)
    (st : ReapState) : ReapState :=
  match _h : reapStep completed waitpid st with
  | none => st
  | some st' => reapLoop completed waitpid st'
termination_by st.ahead
decreasing_by exact reapStep_ahead (by assumption)

/-- The text that `Shell::cleanupBackgroundProcesses` writes for a finished
process. -/
def completedLine (pid : Pid) (_probe : Probe) : String :=
  "[Background] Process " ++ toString pid ++ " completed\n"

/-- `Shell::cleanupBackgroundProcesses`, from `backgroundProcesses.begin()`. -/
def cleanupBackgroundProcesses (waitpid : Nat → Pid → Probe) (bgProcesses : List Pid) :
    ReapState :=
  reapLoop completedLine waitpid { bgProcesses := bgProcesses, it := 0, probed := [], out := [] }

/-- The text that `CommandExecutor::cleanupBackgroundProcesses` writes for a
finished process, with the exit status when `WIFEXITED(status)` holds. -/
def CommandExecutor.completedLine (pid : Pid) (probe : Probe) : String :=
  "[Background] Process " ++ toString pid ++ " completed" ++
    (match probe.exited with
      | some code => " (exit status: " ++ toString code ++ ")"
      | none => "") ++ "\n"

/-- `CommandExecutor::cleanupBackgroundProcesses`: the same loop on the same
vector, with its own message. -/
def CommandExecutor.cleanupBackgroundProcesses (waitpid : Nat → Pid → Probe)
    (bgProcesses : List Pid) : ReapState :=
  reapLoop CommandExecutor.completedLine waitpid
    { bgProcesses := bgProcesses, it := 0, probed := [], out := [] }

/-- The branch taken on a probe: the entry stays when the result is neither
positive nor `-1`. -/
def Probe.keeps (probe : Probe) : Bool := !(decide (probe.result > 0)) && !(probe.result == -1)

/-! ## Shell::addToHistory and Shell::run -/

/-- The constant `MAX_HISTORY`. -/
def MAX_HISTORY : Nat := 1000

/-- `Shell::addToHistory`. The result is `none` where the source evaluates
`commandHistory.back()` on an empty vector, which has no defined value. -/
def addToHistory (command : Str) (commandHistory : List Str) : Option (List Str) :=
  if command.isEmpty then some commandHistory
  else
    match commandHistory.getLast? with
    | none => none
    | some back =>
      if command ≠ back then
        let pushed := commandHistory ++ [command]
        if pushed.length > MAX_HISTORY then some (pushed.eraseIdx 0) else some pushed
      else some commandHistory

/-- `CommandParser::isEmpty`: every character is white space. -/
def isEmpty (input : Str) : Bool := input.all isSpace

/-- The names registered by `BuiltinCommands::registerCommands`. -/
def builtinNames : List Str :=
  ["exit".toList, "cd".toList, "pwd".toList, "echo".toList, "export".toList,
   "unset".toList, "history".toList, "help".toList, "jobs".toList, "fg".toList]

/-- `BuiltinCommands::isBuiltin`. -/
def isBuiltin (command : Str) : Bool := builtinNames.contains command

/-- The loop of `echoCommand` that prints `args[i]` for `i` from `start` on,
with a space before every argument but the first. -/
def echoWords : List Str → String
  | [] => ""
  | [a] => String.mk a
  | a :: b :: rest => String.mk a ++ " " ++ echoWords (b :: rest)

/-- `BuiltinCommands::echoCommand`: the text written to `std::cout`. -/
def echoCommand (args : List Str) : String :=
  match args with
  | _ :: flag :: rest =>
    if flag = "-n".toList then echoWords rest else echoWords (flag :: rest) ++ "\n"
  | _ => "\n"

/-- What `Shell::run` does with a line after `addToHistory`: nothing when the
parsed `args` is empty, the call `builtins->execute(parsed.args)` for a
built-in name, the call `executor->execute(parsed)` otherwise. The built-in
call receives the argument vector only. -/
inductive Dispatch where
  | nothing
  | builtin (args : List Str)
  | external (parsed : ParsedCommand)
deriving DecidableEq, Repr

/-- The parse-and-dispatch step of the loop of `Shell::run`. -/
def dispatch (env vars : VarMap) (commandLine : Str) : Dispatch :=
  let parsed := parse env vars commandLine
  match parsed.args with
  | [] => .nothing
  | name :: _ => if isBuiltin name then .builtin parsed.args else .external parsed

/-- The lines 105 to 111 of `Shell::run`: a line that `isEmpty` accepts is
skipped, any other line is passed to `addToHistory`. -/
def historyStep (commandLine : Str) (commandHistory : List Str) : Option (List Str) :=
  if isEmpty commandLine then some commandHistory
  else addToHistory commandLine commandHistory

/-! ## Iterations of the expansion loop -/

/-- The loop of `expandVariables` run for at most `fuel` iterations: `none`
when `find` has not yet returned `npos` after that many. -/
def expandIter (env vars : VarMap) : Nat → ExpandState → Option Str
  | 0, _ => none
  | fuel + 1, st =>
    match expandStep env vars st with
    | none => some st.result
    | some st' => expandIter env vars fuel st'

theorem expandLoop_none {env vars : VarMap} {st : ExpandState}
    (h : expandStep env vars st = none) : expandLoop env vars st = st.result := by
  rw [expandLoop]
  split
  · rfl
  · rename_i h'; rw [h] at h'; cases h'

theorem expandLoop_some {env vars : VarMap} {st st' : ExpandState}
    (h : expandStep env vars st = some st') :
    expandLoop env vars st = expandLoop env vars st' := by
  rw [expandLoop]
  split
  · rename_i h'; rw [h] at h'; cases h'
  · rename_i h'; rw [h] at h'; cases h'; rfl


/-! ## Variable expansion: the loop against the reference walk -/

theorem findDollar_none {s : Str} (h : findDollar s = none) : '$' ∉ s := by
  induction s with
  | nil => simp
  | cons c cs ih =>
    simp only [findDollar] at h
    split at h
    · cases h
    · rename_i hc
      cases hf : findDollar cs with
      | none =>
        simp only [List.mem_cons, not_or]
        exact ⟨fun e => hc e.symm, ih hf⟩
      | some j => simp [hf] at h

theorem findDollar_some {s : Str} {i : Nat} (h : findDollar s = some i) :
    ∃ a b, s = a ++ '$' :: b ∧ '$' ∉ a ∧ a.length = i := by
  induction s generalizing i with
  | nil => simp [findDollar] at h
  | cons c cs ih =>
    simp only [findDollar] at h
    split at h
    · rename_i hc
      simp at h
      exact ⟨[], cs, by simp [hc], by simp, by simpa using h⟩
    · rename_i hc
      cases hf : findDollar cs with
      | none => simp [hf] at h
      | some j =>
        simp [hf] at h
        obtain ⟨a, b, hs, ha, hl⟩ := ih hf
        refine ⟨c :: a, b, by simp [hs], ?_, by simp [hl, h]⟩
        simp only [List.mem_cons, not_or]
        exact ⟨fun e => hc e.symm, ha⟩

theorem findDollar_append {a b : Str} (ha : '$' ∉ a) :
    findDollar (a ++ '$' :: b) = some a.length := by
  induction a with
  | nil => simp [findDollar]
  | cons c cs ih =>
    simp only [List.mem_cons, not_or] at ha
    have hc : c ≠ '$' := fun e => ha.1 e.symm
    simp [findDollar, hc, ih ha.2]

theorem findDollar_eq_none {s : Str} (h : '$' ∉ s) : findDollar s = none := by
  induction s with
  | nil => rfl
  | cons c cs ih =>
    simp only [List.mem_cons, not_or] at h
    have hc : c ≠ '$' := fun e => h.1 e.symm
    simp [findDollar, hc, ih h.2]

theorem take_takeWhile_length (p : Char → Bool) (b : Str) :
    b.take (b.takeWhile p).length = b.takeWhile p := by
  induction b with
  | nil => simp
  | cons c cs ih =>
    by_cases hc : p c = true
    · simp [List.takeWhile_cons, hc, ih]
    · simp [List.takeWhile_cons, hc]

theorem drop_takeWhile_length (p : Char → Bool) (b : Str) :
    b.drop (b.takeWhile p).length = b.dropWhile p := by
  induction b with
  | nil => simp
  | cons c cs ih =>
    by_cases hc : p c = true
    · simp [List.takeWhile_cons, List.dropWhile_cons, hc, ih]
    · simp [List.takeWhile_cons, List.dropWhile_cons, hc]

theorem refExpand_noDollar (env vars : VarMap) {a : Str} (r : Str) (ha : '$' ∉ a) :
    refExpand env vars none (a ++ r) = a ++ refExpand env vars none r := by
  induction a with
  | nil => rfl
  | cons c cs ih =>
    simp only [List.mem_cons, not_or] at ha
    have hc : c ≠ '$' := fun e => ha.1 e.symm
    simp [refExpand, hc, ih ha.2]

theorem refExpand_pending (env vars : VarMap) (n b : Str) :
    refExpand env vars (some n) b =
      emitName env vars (n ++ b.takeWhile isNameChar) ++
        refExpand env vars none (b.dropWhile isNameChar) := by
  induction b generalizing n with
  | nil => simp [refExpand, emitName]
  | cons c cs ih =>
    by_cases hc : isNameChar c = true
    · simp [refExpand, hc, List.takeWhile_cons, List.dropWhile_cons, ih]
    · simp [refExpand, hc, List.takeWhile_cons, List.dropWhile_cons, emitName]

theorem find_append (done rest : Str) :
    find (done ++ rest) done.length = (findDollar rest).map (· + done.length) := by
  simp [find]

/-- Invariant of the loop: with `done` already scanned and `rest` the part of
the input still ahead, the loop returns `done` followed by the reference walk
of `rest`. -/
theorem expandLoop_eq_ref (env vars : VarMap) (n : Nat) :
    ∀ (done rest : Str), rest.length ≤ n →
      expandLoop env vars { result := done ++ rest, pos := done.length } =
        done ++ refExpand env vars none rest := by
  induction n with
  | zero =>
    intro done rest h
    have : rest = [] := by simpa using h
    subst this
    rw [expandLoop_none]
    · simp [refExpand]
    · simp [expandStep, find, findDollar]
  | succ n ih =>
    intro done rest h
    cases hf : findDollar rest with
    | none =>
      rw [expandLoop_none]
      · have := refExpand_noDollar env vars [] (findDollar_none hf)
        simp only [List.append_nil] at this
        rw [this]; simp [refExpand]
      · simp [expandStep, find_append, hf]
    | some i =>
      obtain ⟨a, b, hs, ha, hl⟩ := findDollar_some hf
      subst hs
      have hdrop : List.drop (i + done.length + 1) (done ++ (a ++ '$' :: b)) = b := by
        have : done ++ (a ++ '$' :: b) = (done ++ a ++ ['$']) ++ b := by simp
        rw [this]
        have hlen : i + done.length + 1 = (done ++ a ++ ['$']).length := by simp [hl]; omega
        rw [hlen, List.drop_left]
      have htake : List.take (i + done.length) (done ++ (a ++ '$' :: b)) = done ++ a := by
        have : done ++ (a ++ '$' :: b) = (done ++ a) ++ '$' :: b := by simp
        rw [this]
        have hlen : i + done.length = (done ++ a).length := by simp [hl]; omega
        rw [hlen, List.take_left]
      simp only [List.length_append, List.length_cons] at h
      rw [refExpand_noDollar env vars _ ha]
      simp only [refExpand, if_true]
      rw [refExpand_pending]
      by_cases hname : b.takeWhile isNameChar = []
      · -- a bare `$`: the scan position moves one character on
        have hstep : expandStep env vars { result := done ++ (a ++ '$' :: b), pos := done.length } =
            some { result := (done ++ a ++ ['$']) ++ b, pos := (done ++ a ++ ['$']).length } := by
          simp [expandStep, find_append, hf, scanName, hdrop, hname, hl]
          omega
        rw [expandLoop_some hstep, ih _ b (by omega)]
        have hdw : b.dropWhile isNameChar = b := by
          have := drop_takeWhile_length isNameChar b
          rw [hname] at this
          simpa using this.symm
        simp [emitName, hname, hdw]
      · -- a reference: it is replaced and the scan resumes after the value
        have hpos : 0 < (b.takeWhile isNameChar).length := List.length_pos.mpr hname
        have hstep : expandStep env vars { result := done ++ (a ++ '$' :: b), pos := done.length } =
            some { result := (done ++ a ++ lookupVar env vars (b.takeWhile isNameChar)) ++
                      b.dropWhile isNameChar,
                   pos := (done ++ a ++ lookupVar env vars (b.takeWhile isNameChar)).length } := by
          have e1 : i + done.length + 1 + (b.takeWhile isNameChar).length - (i + done.length + 1)
              = (b.takeWhile isNameChar).length := by omega
          have e2 : i + done.length +
              (i + done.length + 1 + (b.takeWhile isNameChar).length - (i + done.length))
              = (i + done.length + 1) + (b.takeWhile isNameChar).length := by omega
          have e3 : List.drop (i + done.length + 1 + (b.takeWhile isNameChar).length)
              (done ++ (a ++ '$' :: b)) = b.dropWhile isNameChar := by
            rw [← List.drop_drop, hdrop, drop_takeWhile_length]
          simp only [expandStep, find_append, hf, Option.map_some', scanName, hdrop, substr,
            replace, e1, e2, e3, htake, take_takeWhile_length]
          simp [hpos, hl]
          omega
        have hlt : (b.dropWhile isNameChar).length ≤ n := by
          have := drop_takeWhile_length isNameChar b
          have h2 : (b.drop (b.takeWhile isNameChar).length).length
              = b.length - (b.takeWhile isNameChar).length := List.length_drop _ _
          rw [this] at h2
          omega
        rw [expandLoop_some hstep, ih _ _ hlt]
        simp [emitName, hname]

/-- The in-place loop computes the reference walk of its input. -/
theorem expandVariables_eq_refExpand (env vars : VarMap) (input : Str) :
    expandVariables env vars input = refExpand env vars none input := by
  have := expandLoop_eq_ref env vars input.length [] input (le_refl _)
  simpa [expandVariables] using this

theorem takeWhile_name_append {n s : Str} (hname : ∀ c ∈ n, isNameChar c = true)
    (hs : ∀ c ∈ s.head?, isNameChar c = false) :
    (n ++ s).takeWhile isNameChar = n ∧ (n ++ s).dropWhile isNameChar = s := by
  induction n with
  | nil =>
    cases s with
    | nil => simp
    | cons c t =>
      have : isNameChar c = false := hs c (by simp)
      simp [List.takeWhile_cons, List.dropWhile_cons, this]
  | cons c cs ih =>
    have hc : isNameChar c = true := hname c (by simp)
    have := ih (fun d hd => hname d (by simp [hd]))
    simp [List.takeWhile_cons, List.dropWhile_cons, hc, this]

theorem refExpand_noDollar_id (env vars : VarMap) {s : Str} (hs : '$' ∉ s) :
    refExpand env vars none s = s := by
  have := refExpand_noDollar env vars [] hs
  simpa [refExpand] using this

/-- A single reference `$name` between a prefix and a suffix without `'$'`
is replaced by what the name resolves to. -/
theorem expandVariables_single (env vars : VarMap) (name p s : Str)
    (hne : name ≠ []) (hname : ∀ c ∈ name, isNameChar c = true)
    (hp : '$' ∉ p) (hs : '$' ∉ s) (hhead : ∀ c ∈ s.head?, isNameChar c = false) :
    expandVariables env vars (p ++ '$' :: name ++ s) = p ++ lookupVar env vars name ++ s := by
  rw [expandVariables_eq_refExpand]
  have e : p ++ '$' :: name ++ s = p ++ ('$' :: (name ++ s)) := by simp
  rw [e, refExpand_noDollar env vars _ hp]
  simp only [refExpand, if_true]
  obtain ⟨h1, h2⟩ := takeWhile_name_append hname hhead
  rw [refExpand_pending, h1, h2, refExpand_noDollar_id env vars hs]
  simp [emitName, hne]

/-! ## Claims on variable expansion -/

/-- C1: a reference `$NAME` whose name resolves to `v` (in the environment,
or else in the shell map), standing between a prefix `p` and a suffix `s`
without `'$'`, where `s` is empty or begins with a character that cannot
continue a name, is replaced by `v`: the expansion of `p ++ "$" ++ NAME ++ s`
is `p ++ v ++ s`. The environment value wins over the shell-map value. -/
theorem expandVariables_defined (env vars : VarMap) (NAME v p s : Str)
    (hne : NAME ≠ []) (hname : ∀ c ∈ NAME, isNameChar c = true)
    (hres : env NAME = some v ∨ (env NAME = none ∧ vars NAME = some v))
    (hp : '$' ∉ p) (hs : '$' ∉ s) (hhead : ∀ c ∈ s.head?, isNameChar c = false) :
    expandVariables env vars (p ++ '$' :: NAME ++ s) = p ++ v ++ s := by
  rw [expandVariables_single env vars NAME p s hne hname hp hs hhead]
  rcases hres with h | ⟨h1, h2⟩
  · simp [lookupVar, h]
  · simp [lookupVar, h1, h2]

theorem expandVariables_defined_witness :
    expandVariables (fun n => if n = "HOME".toList then some "/root".toList else none)
        (fun n => if n = "HOME".toList then some "/tmp".toList else none)
        ("cd ".toList ++ '$' :: "HOME".toList ++ "/bin -l".toList)
      = "cd ".toList ++ "/root".toList ++ "/bin -l".toList :=
  expandVariables_defined _ _ "HOME".toList "/root".toList "cd ".toList "/bin -l".toList
    (by decide) (by decide) (Or.inl (by decide)) (by decide) (by decide) (by decide)

/-- C2: a reference `$NAME` whose name is set neither in the environment nor
in the shell map, between a prefix `p` and a suffix `s` without `'$'` where
`s` does not begin with a name character, expands to nothing: the expansion
of `p ++ "$" ++ NAME ++ s` is `p ++ s`. -/
theorem expandVariables_undefined (env vars : VarMap) (NAME p s : Str)
    (hne : NAME ≠ []) (hname : ∀ c ∈ NAME, isNameChar c = true)
    (henv : env NAME = none) (hvars : vars NAME = none)
    (hp : '$' ∉ p) (hs : '$' ∉ s) (hhead : ∀ c ∈ s.head?, isNameChar c = false) :
    expandVariables env vars (p ++ '$' :: NAME ++ s) = p ++ s := by
  rw [expandVariables_single env vars NAME p s hne hname hp hs hhead]
  simp [lookupVar, henv, hvars]

theorem expandVariables_undefined_witness :
    expandVariables (fun n => if n = "HOME".toList then some "/root".toList else none)
        (fun _ => none)
        ("echo [".toList ++ '$' :: "NO_SUCH_1".toList ++ "] done".toList)
      = "echo [".toList ++ "] done".toList :=
  expandVariables_undefined _ _ "NO_SUCH_1".toList "echo [".toList "] done".toList
    (by decide) (by decide) (by decide) (by decide) (by decide) (by decide) (by decide)

/-- C3: a line in which every `'$'` is the last character or is followed by
a character that is not a letter, digit or underscore is returned unchanged,
whatever the environment and the shell variable map hold. -/
theorem expandVariables_bare_dollar (env vars : VarMap) (input : Str)
    (hbare : List.Chain' (fun c d => c = '$' → isNameChar d = false) input) :
    expandVariables env vars input = input := by
  rw [expandVariables_eq_refExpand]
  induction input with
  | nil => rfl
  | cons c cs ih =>
    have ih' := ih hbare.tail
    by_cases hc : c = '$'
    · subst hc
      simp only [refExpand, if_true]
      rw [refExpand_pending]
      have hhead : ∀ d ∈ cs.head?, isNameChar d = false := by
        intro d hd
        cases cs with
        | nil => simp at hd
        | cons x xs =>
          simp at hd
          subst hd
          exact (List.chain'_cons.mp hbare).1 rfl
      obtain ⟨h1, h2⟩ := takeWhile_name_append (n := []) (s := cs) (by simp) hhead
      simp only [List.nil_append] at h1 h2
      rw [h1, h2, ih']
      simp [emitName]
    · simp [refExpand, hc, ih']

theorem expandVariables_bare_dollar_witness :
    expandVariables (fun _ => some "x".toList) (fun _ => some "y".toList)
        "cost: 5$ + $ 3 $-$$".toList
      = "cost: 5$ + $ 3 $-$$".toList :=
  expandVariables_bare_dollar _ _ "cost: 5$ + $ 3 $-$$".toList
    (by simp [List.chain'_cons, isNameChar, Char.isAlphanum, Char.isAlpha, Char.isDigit,
      Char.isUpper, Char.isLower])

/-- C4: expansion is one pass over the original line. For every line and
every assignment of variables the in-place loop of `expandVariables` returns
what the reference expander returns, which walks the original characters left
to right, copies each character outside a `'$'`+maximal-name occurrence and
emits the resolved value (or nothing) for each occurrence. In particular a
substituted value is not expanded again: with `A` set to `$B` and `B` set to
`x`, the line `$A $B` expands to `$B x`. -/
theorem expandVariables_single_pass :
    (∀ (env vars : VarMap) (input : Str),
      expandVariables env vars input = refExpand env vars none input) ∧
    expandVariables (fun _ => none)
        (fun n => if n = "A".toList then some "$B".toList
                  else if n = "B".toList then some "x".toList else none)
        "$A $B".toList = "$B x".toList := by
  refine ⟨expandVariables_eq_refExpand, ?_⟩
  rw [expandVariables_eq_refExpand]
  decide

/-! ## The operator pass -/

theorem pipeSection_eq (post : List Str) (cmd : ParsedCommand) :
    pipeSection post cmd =
      { cmd with
        background := cmd.background || post.contains tokAmp,
        pipeCommand := cmd.pipeCommand ++ post.filter (fun t => t != tokAmp) } := by
  induction post generalizing cmd with
  | nil => simp [pipeSection]
  | cons t ts ih =>
    by_cases ht : t = tokAmp
    · subst ht
      simp [pipeSection, ih]
    · have hne : (t == tokAmp) = false := by simpa using ht
      have hne' : ¬ tokAmp = t := fun e => ht e.symm
      simp [pipeSection, ih, ht, hne, List.contains_cons, hne']

theorem parseLoop_word (t : Str) (rest : List Str) (cmd : ParsedCommand)
    (ht : isOperator t = false) :
    parseLoop (t :: rest) cmd = parseLoop rest { cmd with args := cmd.args ++ [t] } := by
  simp only [isOperator, Bool.or_eq_false_iff, beq_eq_false_iff_ne, ne_eq] at ht
  obtain ⟨⟨⟨⟨h1, h2⟩, h3⟩, h4⟩, h5⟩ := ht
  cases rest with
  | nil => simp [parseLoop, h5]
  | cons f rest => simp [parseLoop, h1, h2, h3, h4, h5]

theorem parseLoop_words (a rest : List Str) (cmd : ParsedCommand)
    (ha : ∀ t ∈ a, isOperator t = false) :
    parseLoop (a ++ rest) cmd = parseLoop rest { cmd with args := cmd.args ++ a } := by
  induction a generalizing cmd with
  | nil => simp
  | cons t ts ih =>
    rw [List.cons_append, parseLoop_word t _ cmd (ha t (by simp)),
      ih _ (fun u hu => ha u (by simp [hu]))]
    simp

theorem parseLoop_append (pre : List Str) :
    reachesNext pre = true → ∀ (rest : List Str) (cmd : ParsedCommand), rest ≠ [] →
      parseLoop (pre ++ rest) cmd = parseLoop rest (parseLoop pre cmd) := by
  induction pre using reachesNext.induct with
  | case1 => intro _ rest cmd _; simp [parseLoop]
  | case2 t =>
    intro h rest cmd hrest
    obtain ⟨r, rs, rfl⟩ := List.exists_cons_of_ne_nil hrest
    simp only [reachesNext, isRedirect, Bool.and_eq_true, Bool.not_eq_true', Bool.or_eq_false_iff,
      beq_eq_false_iff_ne, ne_eq] at h
    obtain ⟨⟨⟨h1, h2⟩, h3⟩, h4⟩ := h
    by_cases h5 : t = tokAmp
    · subst h5
      simp [parseLoop, tokAmp, tokLt, tokGt, tokGtGt, tokPipe]
    · simp [parseLoop, h1, h2, h3, h4, h5]
  | case3 t f rest' hred ih =>
    intro h rest cmd hrest
    have h' : reachesNext rest' = true := by simpa [reachesNext, hred] using h
    simp only [isRedirect, Bool.or_eq_true, beq_iff_eq] at hred
    rcases hred with (rfl | rfl) | rfl
    · simp [parseLoop, ih h' rest _ hrest]
    · simp [parseLoop, tokGt, tokLt, ih h' rest _ hrest]
    · simp [parseLoop, tokGtGt, tokGt, tokLt, ih h' rest _ hrest]
  | case4 t f rest' hred hpipe =>
    intro h
    simp [reachesNext, hred, hpipe] at h
  | case5 t f rest' hred hpipe ih =>
    intro h rest cmd hrest
    have h' : reachesNext (f :: rest') = true := by simpa [reachesNext, hred, hpipe] using h
    simp only [isRedirect, Bool.or_eq_true, beq_iff_eq, not_or] at hred
    obtain ⟨⟨h1, h2⟩, h3⟩ := hred
    have h4 : t ≠ tokPipe := by simpa using hpipe
    have ih' := ih h' rest
    by_cases h5 : t = tokAmp
    · subst h5
      simp only [List.cons_append] at ih' ⊢
      simp [parseLoop, tokAmp, tokLt, tokGt, tokGtGt, tokPipe, ih' _ hrest]
    · simp only [List.cons_append] at ih' ⊢
      simp [parseLoop, h1, h2, h3, h4, h5, ih' _ hrest]

/-- A pipe that the loop of `parse` meets with a token after it ends the
pass: the fields set so far are kept and the rest goes to the pipe section. -/
theorem parseLoop_pipe (pre post : List Str) (cmd : ParsedCommand)
    (hpre : reachesNext pre = true) (hpost : post ≠ []) :
    parseLoop (pre ++ tokPipe :: post) cmd =
      { parseLoop pre cmd with
        hasPipe := true,
        background := (parseLoop pre cmd).background || post.contains tokAmp,
        pipeCommand := (parseLoop pre cmd).pipeCommand ++ post.filter (fun t => t != tokAmp) } := by
  rw [parseLoop_append pre hpre _ cmd (by simp)]
  obtain ⟨f, rest, rfl⟩ := List.exists_cons_of_ne_nil hpost
  simp [parseLoop, tokPipe, tokLt, tokGt, tokGtGt, pipeSection_eq]

theorem parseLoop_redirect (op f : Str) (rest : List Str) (cmd : ParsedCommand)
    (hop : op = tokLt ∨ op = tokGt ∨ op = tokGtGt) :
    parseLoop (op :: f :: rest) cmd =
      parseLoop rest
        { cmd with
          inputFile := if op = tokLt then f else cmd.inputFile,
          outputFile := if op = tokLt then cmd.outputFile else f,
          appendOutput := if op = tokLt then cmd.appendOutput else decide (op = tokGtGt) } := by
  rcases hop with rfl | rfl | rfl
  · simp [parseLoop]
  · simp [parseLoop, tokGt, tokLt, tokGtGt]
  · simp [parseLoop, tokGt, tokLt, tokGtGt]

theorem parseLoop_reaches_pipe (pre : List Str) :
    reachesNext pre = true → ∀ cmd : ParsedCommand,
      (parseLoop pre cmd).hasPipe = cmd.hasPipe ∧
        (parseLoop pre cmd).pipeCommand = cmd.pipeCommand := by
  induction pre using reachesNext.induct with
  | case1 => intro _ cmd; simp [parseLoop]
  | case2 t =>
    intro _ cmd
    by_cases h5 : t = tokAmp
    · simp [parseLoop, h5]
    · simp [parseLoop, h5]
  | case3 t f rest' hred ih =>
    intro h cmd
    have h' : reachesNext rest' = true := by simpa [reachesNext, hred] using h
    simp only [isRedirect, Bool.or_eq_true, beq_iff_eq] at hred
    have hop : t = tokLt ∨ t = tokGt ∨ t = tokGtGt := by tauto
    rw [parseLoop_redirect t f rest' cmd hop]
    exact ih h' _
  | case4 t f rest' hred hpipe =>
    intro h
    simp [reachesNext, hred, hpipe] at h
  | case5 t f rest' hred hpipe ih =>
    intro h cmd
    have h' : reachesNext (f :: rest') = true := by simpa [reachesNext, hred, hpipe] using h
    simp only [isRedirect, Bool.or_eq_true, beq_iff_eq, not_or] at hred
    obtain ⟨⟨h1, h2⟩, h3⟩ := hred
    have h4 : t ≠ tokPipe := by simpa using hpipe
    by_cases h5 : t = tokAmp
    · subst h5
      have := ih h' { cmd with background := true }
      simpa [parseLoop, tokAmp, tokLt, tokGt, tokGtGt, tokPipe] using this
    · have := ih h' { cmd with args := cmd.args ++ [t] }
      simpa [parseLoop, h1, h2, h3, h4, h5] using this

/-! ## Claims on the operator pass -/

/-- C5: when the tokens of the expanded line are non-operator words `a`, one
redirection operator `op` among `<`, `>`, `>>` followed by any token `f`,
then non-operator words `b`, `parse` returns `args = a ++ b` (neither `op`
nor `f` is an argument), `hasPipe = false`, `background = false`, and for `<`
`inputFile = f` with an empty `outputFile`, for `>` `outputFile = f` with
`appendOutput = false`, for `>>` `outputFile = f` with `appendOutput = true`. -/
theorem parse_redirection (env vars : VarMap) (commandLine : Str) (a b : List Str) (op f : Str)
    (ha : ∀ t ∈ a, isOperator t = false) (hb : ∀ t ∈ b, isOperator t = false)
    (hop : op = tokLt ∨ op = tokGt ∨ op = tokGtGt)
    (htok : tokenize (expandVariables env vars commandLine) = a ++ op :: f :: b) :
    (parse env vars commandLine).args = a ++ b ∧
    (parse env vars commandLine).hasPipe = false ∧
    (parse env vars commandLine).background = false ∧
    (parse env vars commandLine).pipeCommand = [] ∧
    (op = tokLt → (parse env vars commandLine).inputFile = f ∧
      (parse env vars commandLine).outputFile = []) ∧
    (op = tokGt → (parse env vars commandLine).outputFile = f ∧
      (parse env vars commandLine).appendOutput = false) ∧
    (op = tokGtGt → (parse env vars commandLine).outputFile = f ∧
      (parse env vars commandLine).appendOutput = true) := by
  have hb' : parseLoop b = fun cmd => { cmd with args := cmd.args ++ b } := by
    funext cmd
    have := parseLoop_words b [] cmd hb
    simpa [parseLoop] using this
  simp only [parse, parseTokens, htok]
  rw [parseLoop_words a _ _ ha, parseLoop_redirect op f b _ hop, hb']
  rcases hop with rfl | rfl | rfl <;>
    simp [ParsedCommand.init, tokLt, tokGt, tokGtGt]

theorem parse_redirection_witness :
    (parse (fun _ => none) (fun _ => none) "sort -r >> out.txt now".toList).args
        = ["sort".toList, "-r".toList] ++ ["now".toList] ∧
    (parse (fun _ => none) (fun _ => none) "sort -r >> out.txt now".toList).outputFile
        = "out.txt".toList ∧
    (parse (fun _ => none) (fun _ => none) "sort -r >> out.txt now".toList).appendOutput
        = true :=
  have h := parse_redirection (fun _ => none) (fun _ => none) "sort -r >> out.txt now".toList
    ["sort".toList, "-r".toList] ["now".toList] tokGtGt "out.txt".toList
    (by decide) (by decide) (by decide)
    (by rw [expandVariables_eq_refExpand]; decide)
  ⟨h.1, (h.2.2.2.2.2.2 rfl).1, (h.2.2.2.2.2.2 rfl).2⟩

/-- C6 (as the code has it): when the loop of `parse` meets a `|` with a token
after it, `hasPipe = true` and `pipeCommand` is built from the tokens `post`
after that `|`: every `&` among them, trailing or not, is the background
marker (`background = true`, and the token is not put in `pipeCommand`), and
every other token, in order, is appended to `pipeCommand`. -/
theorem parse_pipe_section (env vars : VarMap) (commandLine : Str) (pre post : List Str)
    (hpre : reachesNext pre = true) (hpost : post ≠ [])
    (htok : tokenize (expandVariables env vars commandLine) = pre ++ tokPipe :: post) :
    (parse env vars commandLine).hasPipe = true ∧
    (parse env vars commandLine).pipeCommand = post.filter (fun t => t != tokAmp) ∧
    (tokAmp ∈ post → (parse env vars commandLine).background = true) ∧
    (parse env vars commandLine).background =
      ((parseTokens pre).background || post.contains tokAmp) := by
  have hpc : (parseLoop pre ParsedCommand.init).pipeCommand = [] :=
    (parseLoop_reaches_pipe pre hpre ParsedCommand.init).2
  simp only [parse, parseTokens, htok, parseLoop_pipe pre post _ hpre hpost]
  refine ⟨trivial, ?_, ?_, trivial⟩
  · simp [hpc]
  · intro h; simp [h]

theorem parse_pipe_section_witness :
    (parse (fun _ => none) (fun _ => none) "ls -l | grep & x | wc &".toList).pipeCommand
        = ["grep".toList, "x".toList, "|".toList, "wc".toList] ∧
    (parse (fun _ => none) (fun _ => none) "ls -l | grep & x | wc &".toList).background
        = true :=
  have h := parse_pipe_section (fun _ => none) (fun _ => none) "ls -l | grep & x | wc &".toList
    ["ls".toList, "-l".toList]
    ["grep".toList, "&".toList, "x".toList, "|".toList, "wc".toList, "&".toList]
    (by decide) (by decide) (by rw [expandVariables_eq_refExpand]; decide)
  ⟨h.2.1, h.2.2.1 (by decide)⟩

/-- C6 as stated fails: in `a | b & c` the `&` is not the last token, yet it
is taken as the background marker and left out of `pipeCommand`. -/
theorem parse_pipe_inner_amp :
    tokenize (expandVariables (fun _ => none) (fun _ => none) "a | b & c".toList)
        = ["a".toList, tokPipe, "b".toList, tokAmp, "c".toList] ∧
    (parse (fun _ => none) (fun _ => none) "a | b & c".toList).hasPipe = true ∧
    (parse (fun _ => none) (fun _ => none) "a | b & c".toList).background = true ∧
    (parse (fun _ => none) (fun _ => none) "a | b & c".toList).pipeCommand
        = ["b".toList, "c".toList] ∧
    (parse (fun _ => none) (fun _ => none) "a | b & c".toList).pipeCommand
        ≠ ["b".toList, tokAmp, "c".toList] := by
  simp only [parse, expandVariables_eq_refExpand]
  decide

theorem firstPipe_split (pre : List Str) :
    consumesNext pre = false →
      reachesNext pre = true ∨
        ∃ pre1 pre2, pre = pre1 ++ tokPipe :: pre2 ∧ reachesNext pre1 = true := by
  induction pre using reachesNext.induct with
  | case1 => intro _; exact Or.inl rfl
  | case2 t =>
    intro h
    have hred : isRedirect t = false := by simpa [consumesNext] using h
    by_cases hp : t = tokPipe
    · exact Or.inr ⟨[], [], by simp [hp], rfl⟩
    · left
      simp [reachesNext, hred, hp]
  | case3 t f rest' hred ih =>
    intro h
    have h' : consumesNext rest' = false := by simpa [consumesNext, hred] using h
    rcases ih h' with hr | ⟨p1, p2, e, hr⟩
    · left; simpa [reachesNext, hred] using hr
    · right
      exact ⟨t :: f :: p1, p2, by simp [e], by simpa [reachesNext, hred] using hr⟩
  | case4 t f rest' hred hpipe =>
    intro _
    have : t = tokPipe := by simpa using hpipe
    exact Or.inr ⟨[], f :: rest', by simp [this], rfl⟩
  | case5 t f rest' hred hpipe ih =>
    intro h
    have h' : consumesNext (f :: rest') = false := by
      simpa [consumesNext, hred, hpipe] using h
    rcases ih h' with hr | ⟨p1, p2, e, hr⟩
    · left; simpa [reachesNext, hred, hpipe] using hr
    · right
      refine ⟨t :: p1, p2, by simp [e], ?_⟩
      cases p1 with
      | nil => simp [reachesNext, hred, hpipe]
      | cons x xs => simpa [reachesNext, hred, hpipe] using hr

/-- C7: parsing stops at the first recognized pipe. For token lists
`pre ++ ["|"] ++ post` with `post` non-empty in which that `|` is not taken as
the file name of a redirection, the fields `args`, `inputFile`, `outputFile`
and `appendOutput` of the result depend only on `pre`: two lines that differ
only in `post` agree on them (and when no pipe is recognized inside `pre`
they are what `pre` alone parses to, with `pipeCommand` equal to `post`
without its `&` tokens). Every token of `post` equal to `|`, `<`, `>` or `>>`
is appended to `pipeCommand` as an argument. -/
theorem parse_stops_at_pipe (env vars : VarMap) (commandLine commandLine' : Str)
    (pre post post' : List Str)
    (hpre : consumesNext pre = false) (hpost : post ≠ []) (hpost' : post' ≠ [])
    (htok : tokenize (expandVariables env vars commandLine) = pre ++ tokPipe :: post)
    (htok' : tokenize (expandVariables env vars commandLine') = pre ++ tokPipe :: post') :
    (parse env vars commandLine).args = (parse env vars commandLine').args ∧
    (parse env vars commandLine).inputFile = (parse env vars commandLine').inputFile ∧
    (parse env vars commandLine).outputFile = (parse env vars commandLine').outputFile ∧
    (parse env vars commandLine).appendOutput = (parse env vars commandLine').appendOutput ∧
    (parse env vars commandLine).hasPipe = true ∧
    (∀ t ∈ post, t = tokPipe ∨ t = tokLt ∨ t = tokGt ∨ t = tokGtGt →
      t ∈ (parse env vars commandLine).pipeCommand) ∧
    (reachesNext pre = true →
      (parse env vars commandLine).args = (parseTokens pre).args ∧
      (parse env vars commandLine).inputFile = (parseTokens pre).inputFile ∧
      (parse env vars commandLine).outputFile = (parseTokens pre).outputFile ∧
      (parse env vars commandLine).appendOutput = (parseTokens pre).appendOutput ∧
      (parse env vars commandLine).pipeCommand = post.filter (fun t => t != tokAmp)) := by
  have hmem : ∀ (mid : List Str) (t : Str), t ∈ post →
      (t = tokPipe ∨ t = tokLt ∨ t = tokGt ∨ t = tokGtGt) →
      t ∈ (mid ++ post).filter (fun t => t != tokAmp) := by
    intro mid t ht hop
    have hne : t ≠ tokAmp := by
      rcases hop with rfl | rfl | rfl | rfl <;> decide
    simp [ht, hne]
  have hlast : reachesNext pre = true →
      (parse env vars commandLine).args = (parseTokens pre).args ∧
      (parse env vars commandLine).inputFile = (parseTokens pre).inputFile ∧
      (parse env vars commandLine).outputFile = (parseTokens pre).outputFile ∧
      (parse env vars commandLine).appendOutput = (parseTokens pre).appendOutput ∧
      (parse env vars commandLine).pipeCommand = post.filter (fun t => t != tokAmp) := by
    intro hr
    have hpc : (parseLoop pre ParsedCommand.init).pipeCommand = [] :=
      (parseLoop_reaches_pipe pre hr ParsedCommand.init).2
    simp only [parse, parseTokens, htok, parseLoop_pipe pre post _ hr hpost]
    simp [hpc]
  rcases firstPipe_split pre hpre with hr | ⟨p1, p2, e, hr⟩
  · have hpc : (parseLoop pre ParsedCommand.init).pipeCommand = [] :=
      (parseLoop_reaches_pipe pre hr ParsedCommand.init).2
    refine ⟨?_, ?_, ?_, ?_, ?_, ?_, hlast⟩
    all_goals
      simp only [parse, parseTokens, htok, htok', parseLoop_pipe pre post _ hr hpost,
        parseLoop_pipe pre post' _ hr hpost']
    intro t ht hop
    simpa [hpc] using hmem [] t ht hop
  · have hpc : (parseLoop p1 ParsedCommand.init).pipeCommand = [] :=
      (parseLoop_reaches_pipe p1 hr ParsedCommand.init).2
    have e1 : pre ++ tokPipe :: post = p1 ++ tokPipe :: (p2 ++ tokPipe :: post) := by
      simp [e]
    have e2 : pre ++ tokPipe :: post' = p1 ++ tokPipe :: (p2 ++ tokPipe :: post') := by
      simp [e]
    refine ⟨?_, ?_, ?_, ?_, ?_, ?_, hlast⟩
    all_goals
      simp only [parse, parseTokens, htok, htok', e1, e2,
        parseLoop_pipe p1 (p2 ++ tokPipe :: post) _ hr (by simp),
        parseLoop_pipe p1 (p2 ++ tokPipe :: post') _ hr (by simp)]
    intro t ht hop
    have := hmem (p2 ++ [tokPipe]) t ht hop
    simpa [hpc] using this

theorem parse_stops_at_pipe_witness :
    (parse (fun _ => none) (fun _ => none) "cat < in | sort > out | uniq".toList).outputFile
        = (parse (fun _ => none) (fun _ => none) "cat < in | wc".toList).outputFile ∧
    (parse (fun _ => none) (fun _ => none) "cat < in | sort > out | uniq".toList).hasPipe
        = true ∧
    tokGt ∈
      (parse (fun _ => none) (fun _ => none) "cat < in | sort > out | uniq".toList).pipeCommand ∧
    (parse (fun _ => none) (fun _ => none) "cat < in | sort > out | uniq".toList).pipeCommand
        = ["sort".toList, ">".toList, "out".toList, "|".toList, "uniq".toList] :=
  have h := parse_stops_at_pipe (fun _ => none) (fun _ => none)
    "cat < in | sort > out | uniq".toList "cat < in | wc".toList
    ["cat".toList, "<".toList, "in".toList]
    ["sort".toList, ">".toList, "out".toList, "|".toList, "uniq".toList] ["wc".toList]
    (by decide) (by decide) (by decide)
    (by rw [expandVariables_eq_refExpand]; decide)
    (by rw [expandVariables_eq_refExpand]; decide)
  ⟨h.2.2.1, h.2.2.2.2.1, h.2.2.2.2.2.1 tokGt (by decide) (by decide),
    (h.2.2.2.2.2.2 (by decide)).2.2.2.2⟩

theorem parseLoop_hasPipe (tokens : List Str) :
    ∀ cmd : ParsedCommand, cmd.hasPipe = false → (parseLoop tokens cmd).hasPipe = true →
      ∃ pre post, tokens = pre ++ tokPipe :: post ∧ reachesNext pre = true ∧ post ≠ [] := by
  induction tokens using reachesNext.induct with
  | case1 => intro cmd h0 h; simp [parseLoop, h0] at h
  | case2 t =>
    intro cmd h0 h
    by_cases h5 : t = tokAmp
    · simp [parseLoop, h5, h0] at h
    · simp [parseLoop, h5, h0] at h
  | case3 t f rest' hred ih =>
    intro cmd h0 h
    have hred' := hred
    simp only [isRedirect, Bool.or_eq_true, beq_iff_eq] at hred'
    have hop : t = tokLt ∨ t = tokGt ∨ t = tokGtGt := by tauto
    rw [parseLoop_redirect t f rest' cmd hop] at h
    have ih' := fun hh => ih _ hh h
    obtain ⟨pre, post, h1, h2, h3⟩ := ih' h0
    refine ⟨t :: f :: pre, post, by simp [h1], ?_, h3⟩
    simpa [reachesNext, hred] using h2
  | case4 t f rest' hred hpipe =>
    intro cmd _ _
    have : t = tokPipe := by simpa using hpipe
    exact ⟨[], f :: rest', by simp [this], rfl, by simp⟩
  | case5 t f rest' hred hpipe ih =>
    intro cmd h0 h
    have hred' := hred
    simp only [isRedirect, Bool.or_eq_true, beq_iff_eq, not_or] at hred'
    obtain ⟨⟨h1, h2⟩, h3⟩ := hred'
    have h4 : t ≠ tokPipe := by simpa using hpipe
    have key : ∃ cmd' : ParsedCommand, cmd'.hasPipe = false ∧
        parseLoop (t :: f :: rest') cmd = parseLoop (f :: rest') cmd' := by
      by_cases h5 : t = tokAmp
      · subst h5
        exact ⟨{ cmd with background := true }, h0,
          by simp [parseLoop, tokAmp, tokLt, tokGt, tokGtGt, tokPipe]⟩
      · exact ⟨{ cmd with args := cmd.args ++ [t] }, h0,
          by simp [parseLoop, h1, h2, h3, h4, h5]⟩
    obtain ⟨cmd', hc, he⟩ := key
    rw [he] at h
    obtain ⟨pre, post, e1, e2, e3⟩ := ih cmd' hc h
    refine ⟨t :: pre, post, by simp [e1], ?_, e3⟩
    cases pre with
    | nil => simp [reachesNext, hred, hpipe]
    | cons x xs => simpa [reachesNext, hred, hpipe] using e2

/-- C8 (as the code has it): if `parse` returns a command with
`hasPipe = true`, then a recognized `|` has at least one token after it and
`pipeCommand` holds those tokens except the `&` ones, in order; `pipeCommand`
is empty only when every token after the `|` is `&`, and then
`background = true`. -/
theorem parse_hasPipe_pipeCommand (env vars : VarMap) (commandLine : Str)
    (h : (parse env vars commandLine).hasPipe = true) :
    ∃ pre post, tokenize (expandVariables env vars commandLine) = pre ++ tokPipe :: post ∧
      post ≠ [] ∧
      (parse env vars commandLine).pipeCommand = post.filter (fun t => t != tokAmp) ∧
      ((parse env vars commandLine).pipeCommand = [] →
        (∀ t ∈ post, t = tokAmp) ∧ (parse env vars commandLine).background = true) := by
  obtain ⟨pre, post, h1, h2, h3⟩ :=
    parseLoop_hasPipe (tokenize (expandVariables env vars commandLine)) ParsedCommand.init rfl h
  have hpc : (parseLoop pre ParsedCommand.init).pipeCommand = [] :=
    (parseLoop_reaches_pipe pre h2 ParsedCommand.init).2
  refine ⟨pre, post, h1, h3, ?_⟩
  simp only [parse, parseTokens, h1, parseLoop_pipe pre post _ h2 h3]
  simp only [hpc, List.nil_append, true_and]
  intro hnil
  have hall : ∀ t ∈ post, t = tokAmp := by
    intro t ht
    by_contra hne
    have : t ∈ post.filter (fun t => t != tokAmp) := by simp [ht, hne]
    rw [hnil] at this
    cases this
  refine ⟨hall, ?_⟩
  obtain ⟨f, rest, rfl⟩ := List.exists_cons_of_ne_nil h3
  have : f = tokAmp := hall f (by simp)
  simp [this]

theorem parse_hasPipe_pipeCommand_witness :
    ∃ pre post,
      tokenize (expandVariables (fun _ => none) (fun _ => none) "ls | & &".toList)
        = pre ++ tokPipe :: post ∧
      post ≠ [] ∧
      (parse (fun _ => none) (fun _ => none) "ls | & &".toList).pipeCommand
        = post.filter (fun t => t != tokAmp) ∧
      ((parse (fun _ => none) (fun _ => none) "ls | & &".toList).pipeCommand = [] →
        (∀ t ∈ post, t = tokAmp) ∧
          (parse (fun _ => none) (fun _ => none) "ls | & &".toList).background = true) :=
  parse_hasPipe_pipeCommand (fun _ => none) (fun _ => none) "ls | & &".toList
    (by simp only [parse, expandVariables_eq_refExpand]; decide)

/-- C8 as stated fails: `ls | &` parses to `hasPipe = true` with an empty
`pipeCommand`. -/
theorem parse_hasPipe_empty_pipeCommand :
    (parse (fun _ => none) (fun _ => none) "ls | &".toList).hasPipe = true ∧
    (parse (fun _ => none) (fun _ => none) "ls | &".toList).pipeCommand = [] := by
  simp only [parse, expandVariables_eq_refExpand]
  decide

/-- C9: a trailing `<`, `>`, `>>` or `|` that the loop of `parse` meets as the
last token (no pipe was recognized before it and it is not the file name of
an earlier redirection) is not treated as an operator: it is appended to
`args`, and every other field, `inputFile`, `outputFile` and `hasPipe`
included, is as the earlier tokens set it. `parse` has no error result. -/
theorem parse_trailing_operator (env vars : VarMap) (commandLine : Str) (pre : List Str)
    (t : Str) (hpre : reachesNext pre = true)
    (ht : t = tokLt ∨ t = tokGt ∨ t = tokGtGt ∨ t = tokPipe)
    (htok : tokenize (expandVariables env vars commandLine) = pre ++ [t]) :
    parse env vars commandLine =
      { parseTokens pre with args := (parseTokens pre).args ++ [t] } ∧
    (parse env vars commandLine).hasPipe = false := by
  have hne : t ≠ tokAmp := by
    rcases ht with rfl | rfl | rfl | rfl <;> decide
  have hhp : (parseLoop pre ParsedCommand.init).hasPipe = false :=
    (parseLoop_reaches_pipe pre hpre ParsedCommand.init).1
  simp only [parse, parseTokens, htok, parseLoop_append pre hpre [t] _ (by simp)]
  simp [parseLoop, hne, hhp]

theorem parse_trailing_operator_witness :
    parse (fun _ => none) (fun _ => none) "wc -l < in.txt & >".toList =
      { parseTokens ["wc".toList, "-l".toList, "<".toList, "in.txt".toList, "&".toList] with
        args := (parseTokens ["wc".toList, "-l".toList, "<".toList, "in.txt".toList,
          "&".toList]).args ++ [tokGt] } ∧
    (parse (fun _ => none) (fun _ => none) "wc -l < in.txt & >".toList).hasPipe = false :=
  parse_trailing_operator (fun _ => none) (fun _ => none) "wc -l < in.txt & >".toList
    ["wc".toList, "-l".toList, "<".toList, "in.txt".toList, "&".toList] tokGt
    (by decide) (by decide) (by rw [expandVariables_eq_refExpand]; decide)

/-! ## Claims on the job registry -/

/-- C10: `fg` with no argument on a non-empty job registry `r` waits for the
most recently added entry, the last element of `r`, and leaves the registry
equal to `r` without its last element: the other entries stay, in the same
order. -/
theorem fgCommand_no_argument (waitError : Pid → Option String) (r : List Pid) (h : r ≠ []) :
    ∃ o, fgCommand waitError ["fg".toList] r = some o ∧
      o.waited = some (r.getLast h) ∧
      o.bgProcesses = r.dropLast ∧
      o.bgProcesses ++ [r.getLast h] = r ∧
      o.err = (match waitError (r.getLast h) with
        | some e => ["MyShell: fg: failed to wait for process " ++ toString (r.getLast h)
            ++ ": " ++ e ++ "\n"]
        | none => []) := by
  refine ⟨fgWait waitError (r.getLast h) r.dropLast, ?_, rfl, rfl, ?_, rfl⟩
  · simp [fgCommand, h]
  · exact List.dropLast_append_getLast h

theorem fgCommand_no_argument_witness :
    ∃ o, fgCommand (fun _ => none) ["fg".toList] [4100, 4207, 4311] = some o ∧
      o.waited = some 4311 ∧
      o.bgProcesses = [4100, 4207] ∧
      o.bgProcesses ++ [4311] = [4100, 4207, 4311] ∧
      o.err = [] :=
  fgCommand_no_argument (fun _ => none) [4100, 4207, 4311] (by decide)

theorem int_range_guard {v n : Int}
    (h : (if v < -(2 ^ 31) ∨ 2 ^ 31 - 1 < v then none else some v) = some n) :
    -(2 ^ 31) ≤ n ∧ n ≤ 2 ^ 31 - 1 := by
  split at h
  · cases h
  · rename_i hr
    cases h
    push_neg at hr
    exact hr

theorem stoi_range {a : Str} {n : Int} (h : stoi a = some n) :
    -(2 ^ 31) ≤ n ∧ n ≤ 2 ^ 31 - 1 := by
  unfold stoi at h
  simp only at h
  split at h
  · cases h
  · exact int_range_guard h

theorem jobsRows_position (waitpid : Nat → Pid → Probe) (r : List Pid) :
    ∀ (i : Nat) (row : JobRow), row ∈ jobsRows waitpid i r →
      i < row.position ∧ r[row.position - (i + 1)]? = some row.pid := by
  induction r with
  | nil => intro i row h; simp [jobsRows] at h
  | cons p ps ih =>
    intro i row h
    simp only [jobsRows, List.mem_cons] at h
    rcases h with rfl | h
    · simp
    · obtain ⟨h1, h2⟩ := ih (i + 1) row h
      refine ⟨by omega, ?_⟩
      have e : row.position - (i + 1) = (row.position - (i + 1 + 1)) + 1 := by omega
      rw [e]
      simpa using h2

theorem jobsRows_listed (waitpid : Nat → Pid → Probe) (r : List Pid) :
    ∀ (i j : Nat) (pid : Pid), r[j]? = some pid →
      ∃ row ∈ jobsRows waitpid i r, row.position = i + j + 1 ∧ row.pid = pid := by
  induction r with
  | nil => intro i j pid h; simp at h
  | cons p ps ih =>
    intro i j pid h
    cases j with
    | zero =>
      simp at h
      subst h
      exact ⟨{ position := i + 1, pid := p,
               running := decide ((waitpid i p).result = 0) },
        by simp [jobsRows], rfl, rfl⟩
    | succ j =>
      simp at h
      obtain ⟨row, hm, h1, h2⟩ := ih (i + 1) j pid h
      exact ⟨row, by simp [jobsRows, hm], by omega, h2⟩

theorem toInt32_of_range {x : Int} (h1 : -(2 ^ 31) ≤ x) (h2 : x ≤ 2 ^ 31 - 1) :
    toInt32 x = x := by
  unfold toInt32
  omega

theorem toInt32_le_max (x : Int) : toInt32 x ≤ 2 ^ 31 - 1 := by
  unfold toInt32
  omega

/-- A registry of distinct positive 32-bit pids has fewer than `2 ^ 31`
entries, so its size is a value of type `int`. -/
theorem validRegistry_length {r : List Pid} (h : validRegistry r) : r.length < 2 ^ 31 := by
  obtain ⟨hnd, hrange⟩ := h
  have hsub : r.toFinset ⊆ Finset.Ico (1 : Int) (2 ^ 31) := by
    intro p hp
    have hm := hrange p (List.mem_toFinset.mp hp)
    have h0 : (0 : Int) < p := hm.1
    exact Finset.mem_Ico.mpr ⟨Order.one_le_iff_pos.mpr h0, hm.2⟩
  have hcard := Finset.card_le_card hsub
  rw [List.toFinset_card_of_nodup hnd, Int.card_Ico] at hcard
  have e : ((2 : Int) ^ 31 - 1).toNat = 2 ^ 31 - 1 := by decide
  rw [e] at hcard
  omega

/-- The index branch of `fgCommand` on a registry whose size is a value of
type `int`: an argument read as `k`, `1 ≤ k ≤ |r|`, selects the `k`-th entry,
the one that `jobsCommand` lists at position `[k]`. -/
theorem fgCommand_index_of_short (waitError : Pid → Option String)
    (waitpid : Nat → Pid → Probe) (r : List Pid) (a : Str) (k : Nat)
    (hlen : r.length < 2 ^ 31) (hk1 : 1 ≤ k) (hk2 : k ≤ r.length)
    (ha : stoi a = some (k : Int)) :
    ∃ pid o, r[k - 1]? = some pid ∧
      (∃ row ∈ jobsRows waitpid 0 r, row.position = k ∧ row.pid = pid) ∧
      (∀ row ∈ jobsRows waitpid 0 r, row.position = k → row.pid = pid) ∧
      fgCommand waitError ["fg".toList, a] r = some o ∧
      o.waited = some pid ∧
      o.bgProcesses = r.eraseIdx (k - 1) ∧
      o.bgProcesses = r.take (k - 1) ++ r.drop k := by
  have hlt : k - 1 < r.length := by omega
  have hget : r[k - 1]? = some (r[k - 1]) := List.getElem?_eq_getElem hlt
  refine ⟨r[k - 1], fgWait waitError (r[k - 1]) (r.eraseIdx (k - 1)), hget, ?_, ?_, ?_, rfl, rfl, ?_⟩
  · obtain ⟨row, hm, h1, h2⟩ := jobsRows_listed waitpid r 0 (k - 1) _ hget
    exact ⟨row, hm, by omega, h2⟩
  · intro row hm hp
    obtain ⟨_, h2⟩ := jobsRows_position waitpid r 0 row hm
    rw [hp] at h2
    simp only [zero_add] at h2
    rw [hget] at h2
    exact (Option.some.inj h2).symm
  · have hne : r ≠ [] := by
      intro e; subst e; simp at hk2; omega
    have hj : toInt32 ((k : Int) - 1) = ((k - 1 : Nat) : Int) := by
      rw [toInt32_of_range (by omega) (by omega)]
      omega
    have hl : toInt32 (r.length : Int) = (r.length : Int) :=
      toInt32_of_range (by omega) (by omega)
    have hA : ¬ ((k - 1 : Nat) : Int) < 0 := by omega
    have hB : ¬ r.length ≤ k - 1 := by omega
    simp [fgCommand, hne, ha, hj, hl, hA, hB, hget]
  · have e : k = (k - 1) + 1 := by omega
    conv_rhs => rw [e]
    exact List.eraseIdx_eq_take_drop_succ r (k - 1)

/-- C11: `fg` with an index. For every job registry `r` (distinct pids of
forked children) and every `k` with `1 ≤ k ≤ |r|`, `fg` called with an
argument that `stoi` reads as `k` waits for exactly the pid that
`jobsCommand` lists at position `[k]`, the `k`-th element of `r`, and leaves
the registry equal to `r` with only that element removed, the other entries
keeping their relative order. -/
theorem fgCommand_index (waitError : Pid → Option String) (waitpid : Nat → Pid → Probe)
    (r : List Pid) (a : Str) (k : Nat)
    (hvalid : validRegistry r) (hk1 : 1 ≤ k) (hk2 : k ≤ r.length)
    (ha : stoi a = some (k : Int)) :
    ∃ pid o, r[k - 1]? = some pid ∧
      (∃ row ∈ jobsRows waitpid 0 r, row.position = k ∧ row.pid = pid) ∧
      (∀ row ∈ jobsRows waitpid 0 r, row.position = k → row.pid = pid) ∧
      fgCommand waitError ["fg".toList, a] r = some o ∧
      o.waited = some pid ∧
      o.bgProcesses = r.eraseIdx (k - 1) ∧
      o.bgProcesses = r.take (k - 1) ++ r.drop k :=
  fgCommand_index_of_short waitError waitpid r a k (validRegistry_length hvalid) hk1 hk2 ha

theorem fgCommand_index_witness :
    ∃ pid o, ([4100, 4207, 4311] : List Pid)[2 - 1]? = some pid ∧
      (∃ row ∈ jobsRows (fun _ _ => { result := 0, exited := none }) 0 [4100, 4207, 4311],
        row.position = 2 ∧ row.pid = pid) ∧
      (∀ row ∈ jobsRows (fun _ _ => { result := 0, exited := none }) 0 [4100, 4207, 4311],
        row.position = 2 → row.pid = pid) ∧
      fgCommand (fun _ => none) ["fg".toList, "2".toList] [4100, 4207, 4311] = some o ∧
      o.waited = some pid ∧
      o.bgProcesses = [4100, 4207, 4311].eraseIdx (2 - 1) ∧
      o.bgProcesses = [4100, 4207, 4311].take (2 - 1) ++ [4100, 4207, 4311].drop 2 :=
  fgCommand_index (fun _ => none) (fun _ _ => { result := 0, exited := none })
    [4100, 4207, 4311] "2".toList 2 ⟨by decide, by decide⟩ (by decide) (by decide) (by decide)

/-- C12: `fg` with an argument that is not an index of the registry, whether
`stoi` rejects it or reads it as an integer `k` with `k < 1` or `k > |r|`
(every `k` when `r` is empty), reports an error, waits for no process and
leaves the registry exactly equal to `r`. -/
theorem fgCommand_out_of_range (waitError : Pid → Option String) (r : List Pid) (a : Str)
    (hk : ∀ k : Int, stoi a = some k → k < 1 ∨ (r.length : Int) < k) :
    ∃ o, fgCommand waitError ["fg".toList, a] r = some o ∧
      o.err ≠ [] ∧ o.waited = none ∧ o.out = [] ∧ o.bgProcesses = r := by
  by_cases hne : r = []
  · exact ⟨fgError r "MyShell: fg: no background jobs\n", by simp [fgCommand, hne],
      by simp [fgError], rfl, rfl, rfl⟩
  · cases hs : stoi a with
    | none =>
      exact ⟨fgError r "MyShell: fg: invalid job number\n", by simp [fgCommand, hne, hs],
        by simp [fgError], rfl, rfl, rfl⟩
    | some n =>
      obtain ⟨h1, h2⟩ := stoi_range hs
      have hcond : toInt32 (n - 1) < 0 ∨ toInt32 (n - 1) ≥ toInt32 (r.length : Int) := by
        have hmax := toInt32_le_max (r.length : Int)
        rcases hk n hs with h | h
        · by_cases hmin : n = -(2 ^ 31)
          · right
            have : toInt32 (n - 1) = 2 ^ 31 - 1 := by subst hmin; decide
            omega
          · left
            rw [toInt32_of_range (by omega) (by omega)]
            omega
        · right
          rw [toInt32_of_range (by omega) (by omega),
            toInt32_of_range (x := (r.length : Int)) (by omega) (by omega)]
          omega
      exact ⟨fgError r "MyShell: fg: job not found\n", by simp [fgCommand, hne, hs, hcond],
        by simp [fgError], rfl, rfl, rfl⟩

theorem fgCommand_out_of_range_witness :
    ∃ o, fgCommand (fun _ => none) ["fg".toList, "4".toList] [4100, 4207, 4311] = some o ∧
      o.err ≠ [] ∧ o.waited = none ∧ o.out = [] ∧ o.bgProcesses = [4100, 4207, 4311] :=
  fgCommand_out_of_range (fun _ => none) [4100, 4207, 4311] "4".toList
    (by
      intro k hk
      have h4 : stoi "4".toList = some 4 := by decide
      rw [h4] at hk
      cases hk
      decide)

/-! ## Claims on the executor -/

/-- C13: for a command with non-empty `args` and `background = true` whose
forks all succeed, `execute` returns in the parent without a blocking wait and
leaves the registry equal to the old registry followed by the new child pid
when `hasPipe = false`, and by the two child pids in creation order (first
stage, then second stage) when `hasPipe = true` with a non-empty
`pipeCommand` (the executor has its `ioHandler` and the pipe was created, so
that both forks are reached). The old entries are unchanged. -/
theorem execute_background (os : Os) (cmd : ParsedCommand) (bgProcesses : List Pid)
    (hargs : cmd.args ≠ []) (hbg : cmd.background = true)
    (hfork1 : 0 < os.fork1) :
    (cmd.hasPipe = false →
      execute os cmd bgProcesses = .parent (bgProcesses ++ [os.fork1]) []
        ["[Background] Process " ++ toString os.fork1 ++ " started: " ++ spaced cmd.args ++
          "\n"] []) ∧
    (cmd.hasPipe = true → cmd.pipeCommand ≠ [] → os.ioHandler = true → os.createPipe = true →
      0 < os.fork2 →
      execute os cmd bgProcesses = .parent (bgProcesses ++ [os.fork1, os.fork2]) []
        ["[Background] Pipe processes " ++ toString os.fork1 ++ " | " ++ toString os.fork2 ++
          " started\n"] []) := by
  have h1 : os.fork1 ≠ -1 := by omega
  have h2 : os.fork1 ≠ 0 := by omega
  constructor
  · intro hp
    simp [execute, hargs, hp, h1, h2, hbg]
  · intro hp hpc hio hcp hfork2
    have h3 : os.fork2 ≠ -1 := by omega
    have h4 : os.fork2 ≠ 0 := by omega
    simp [execute, executeWithPipe, hargs, hp, hpc, hio, hcp, h1, h2, h3, h4, hbg]

theorem execute_background_witness :
    execute
        { ioHandler := true, createPipe := true, fork1 := 5001, fork2 := 5002,
          strerror := "", waitError := fun _ => none }
        { args := ["false".toList], inputFile := [], outputFile := [], appendOutput := false,
          background := true, hasPipe := true, pipeCommand := ["true".toList] }
        [4100] = .parent ([4100] ++ [5001, 5002]) []
          ["[Background] Pipe processes " ++ toString (5001 : Int) ++ " | " ++
            toString (5002 : Int) ++ " started\n"] [] :=
  (execute_background
      { ioHandler := true, createPipe := true, fork1 := 5001, fork2 := 5002,
        strerror := "", waitError := fun _ => none }
      { args := ["false".toList], inputFile := [], outputFile := [], appendOutput := false,
        background := true, hasPipe := true, pipeCommand := ["true".toList] }
      [4100] (by decide) rfl (by decide)).2 rfl (by decide) rfl rfl (by decide)

/-- C17 fails on the piped path: with `background = true`, a first fork that
succeeds with pid 5001 and a second fork that fails, `execute` returns in the
parent with the registry unchanged, so the running first child 5001 is not an
entry of the job registry (and it was not waited for either). -/
theorem execute_pipe_second_fork_fails :
    execute
        { ioHandler := true, createPipe := true, fork1 := 5001, fork2 := -1,
          strerror := "Resource temporarily unavailable", waitError := fun _ => none }
        { args := ["false".toList], inputFile := [], outputFile := [], appendOutput := false,
          background := true, hasPipe := true, pipeCommand := ["true".toList] }
        [4100] =
      .parent [4100] [] []
        ["MyShell Error: Failed to fork second process (Resource temporarily unavailable)\n"] ∧
    (5001 : Pid) ∉ ([4100] : List Pid) := by
  decide

/-- C14 fails on the built-in path: the line `echo hello > out.txt` parses to
`args = [echo, hello]` with `outputFile = out.txt`, but `echo` is a built-in,
so `Shell::run` calls `builtins->execute(parsed.args)` with the argument
vector only, and `echoCommand` writes `hello` to the shell's own standard
output. The external path does carry the file to the child: for
`/bin/echo hello > out.txt` the child's plan has `outputFile = out.txt`. -/
theorem dispatch_echo_redirect :
    (parse (fun _ => none) (fun _ => none) "echo hello > out.txt".toList).outputFile
      = "out.txt".toList ∧
    dispatch (fun _ => none) (fun _ => none) "echo hello > out.txt".toList
      = .builtin ["echo".toList, "hello".toList] ∧
    echoCommand ["echo".toList, "hello".toList] = "hello\n" ∧
    (∃ parsed, dispatch (fun _ => none) (fun _ => none) "/bin/echo hello > out.txt".toList
        = .external parsed ∧
      execute { ioHandler := true, createPipe := true, fork1 := 0, fork2 := 0,
                strerror := "", waitError := fun _ => none } parsed [] =
        .child { pipeEnd := none, inputFile := [], outputFile := "out.txt".toList,
                 appendOutput := false, argv := ["/bin/echo".toList, "hello".toList] }) := by
  refine ⟨?_, ?_, by decide, ⟨parse (fun _ => none) (fun _ => none)
    "/bin/echo hello > out.txt".toList, ?_, ?_⟩⟩
  · simp only [parse, expandVariables_eq_refExpand]; decide
  · simp only [dispatch, parse, expandVariables_eq_refExpand]; decide
  · simp only [dispatch, parse, expandVariables_eq_refExpand]; decide
  · simp only [parse, expandVariables_eq_refExpand]; decide

/-! ## The reaping loop -/

theorem reapLoop_none {completed : Pid → Probe → String} {waitpid : Nat → Pid → Probe}
    {st : ReapState} (h : reapStep completed waitpid st = none) :
    reapLoop completed waitpid st = st := by
  rw [reapLoop]
  split
  · rfl
  · rename_i h'; rw [h] at h'; cases h'

theorem reapLoop_some {completed : Pid → Probe → String} {waitpid : Nat → Pid → Probe}
    {st st' : ReapState} (h : reapStep completed waitpid st = some st') :
    reapLoop completed waitpid st = reapLoop completed waitpid st' := by
  rw [reapLoop]
  split
  · rename_i h'; rw [h] at h'; cases h'
  · rename_i h'; rw [h] at h'; cases h'; rfl

theorem getElem?_append_length (kept : List Pid) (p : Pid) (ps : List Pid) :
    (kept ++ p :: ps)[kept.length]? = some p := by
  induction kept with
  | nil => simp
  | cons x xs ih => simpa using ih

theorem eraseIdx_append_length (kept : List Pid) (p : Pid) (ps : List Pid) :
    (kept ++ p :: ps).eraseIdx kept.length = kept ++ ps := by
  induction kept with
  | nil => rfl
  | cons x xs ih => simpa using ih

/-- Invariant of the reaping loop: with the entries `kept` behind the iterator
and the entries `rest` ahead of it, the loop probes every entry of `rest`
once, in order, keeps those whose probe takes the `++it` branch, and writes a
line for those whose probe is positive. -/
theorem reapLoop_spec (completed : Pid → Probe → String) (waitpid : Nat → Pid → Probe)
    (rest : List Pid) :
    ∀ (kept probed : List Pid) (out : List String),
      reapLoop completed waitpid
          { bgProcesses := kept ++ rest, it := kept.length, probed := probed, out := out } =
        { bgProcesses := kept ++
            ((rest.enumFrom probed.length).filter (fun e => (waitpid e.1 e.2).keeps)).map
              Prod.snd,
          it := (kept ++
            ((rest.enumFrom probed.length).filter (fun e => (waitpid e.1 e.2).keeps)).map
              Prod.snd).length,
          probed := probed ++ rest,
          out := out ++
            ((rest.enumFrom probed.length).filter
              (fun e => decide ((waitpid e.1 e.2).result > 0))).map
              (fun e => completed e.2 (waitpid e.1 e.2)) } := by
  induction rest with
  | nil =>
    intro kept probed out
    rw [reapLoop_none]
    · simp
    · simp [reapStep]
  | cons p ps ih =>
    intro kept probed out
    by_cases hpos : (waitpid probed.length p).result > 0
    · have hstep : reapStep completed waitpid
          { bgProcesses := kept ++ p :: ps, it := kept.length, probed := probed, out := out } =
          some { bgProcesses := kept ++ ps, it := kept.length, probed := probed ++ [p],
                 out := out ++ [completed p (waitpid probed.length p)] } := by
        simp only [reapStep, getElem?_append_length, eraseIdx_append_length]
        simp [hpos]
      rw [reapLoop_some hstep, ih]
      simp [List.enumFrom_cons, Probe.keeps, hpos]
    · by_cases hneg : (waitpid probed.length p).result = -1
      · have hstep : reapStep completed waitpid
            { bgProcesses := kept ++ p :: ps, it := kept.length, probed := probed, out := out } =
            some { bgProcesses := kept ++ ps, it := kept.length, probed := probed ++ [p],
                   out := out } := by
          simp only [reapStep, getElem?_append_length, eraseIdx_append_length]
          simp [hneg]
        rw [reapLoop_some hstep, ih]
        simp [List.enumFrom_cons, Probe.keeps, hneg]
      · have hstep : reapStep completed waitpid
            { bgProcesses := kept ++ p :: ps, it := kept.length, probed := probed, out := out } =
            some { bgProcesses := (kept ++ [p]) ++ ps, it := (kept ++ [p]).length,
                   probed := probed ++ [p], out := out } := by
          simp only [reapStep, getElem?_append_length]
          simp [hpos, hneg]
        rw [reapLoop_some hstep, ih]
        simp [List.enumFrom_cons, Probe.keeps, hpos, hneg]

theorem enumFrom_filter_map_snd {β : Type} (g : Pid → Bool) (F : Pid → β) (l : List Pid) :
    ∀ n : Nat, ((l.enumFrom n).filter (fun e => g e.2)).map (fun e => F e.2) =
      (l.filter g).map F := by
  induction l with
  | nil => intro n; rfl
  | cons p ps ih =>
    intro n
    by_cases hg : g p = true
    · simp [List.enumFrom_cons, List.filter_cons, hg, ih]
    · simp [List.enumFrom_cons, List.filter_cons, hg, ih]

/-- The reaping loop under an oracle that answers by pid alone. -/
theorem reapLoop_static (completed : Pid → Probe → String) (w : Pid → Probe) (l : List Pid) :
    reapLoop completed (fun _ => w) { bgProcesses := l, it := 0, probed := [], out := [] } =
      { bgProcesses := l.filter (fun p => (w p).keeps),
        it := (l.filter (fun p => (w p).keeps)).length,
        probed := l,
        out := (l.filter (fun p => decide ((w p).result > 0))).map
          (fun p => completed p (w p)) } := by
  have h := reapLoop_spec completed (fun _ => w) l [] [] []
  have e1 := enumFrom_filter_map_snd (fun p => (w p).keeps) id l 0
  have e2 := enumFrom_filter_map_snd (fun p => decide ((w p).result > 0))
    (fun p => completed p (w p)) l 0
  simp only [List.map_id, id] at e1
  simp only [List.nil_append, List.length_nil] at h
  rw [h]
  have e1' : List.map Prod.snd (List.filter (fun e => (w e.2).keeps) (List.enumFrom 0 l)) =
      List.filter (fun p => (w p).keeps) l := by
    have : (fun e : Nat × Pid => id e.2) = Prod.snd := rfl
    rw [← this]
    exact enumFrom_filter_map_snd (fun p => (w p).keeps) id l 0 |>.trans (by simp)
  rw [e1', e2]

theorem reap_twice (completed : Pid → Probe → String) (w : Pid → Probe) (l : List Pid) :
    (reapLoop completed (fun _ => w)
        { bgProcesses := (reapLoop completed (fun _ => w)
            { bgProcesses := l, it := 0, probed := [], out := [] }).bgProcesses,
          it := 0, probed := [], out := [] }).bgProcesses =
      (reapLoop completed (fun _ => w)
        { bgProcesses := l, it := 0, probed := [], out := [] }).bgProcesses ∧
    (reapLoop completed (fun _ => w)
        { bgProcesses := (reapLoop completed (fun _ => w)
            { bgProcesses := l, it := 0, probed := [], out := [] }).bgProcesses,
          it := 0, probed := [], out := [] }).out = [] := by
  simp only [reapLoop_static]
  constructor
  · simp
  · simp only [List.map_eq_nil_iff, List.filter_eq_nil_iff, List.mem_filter]
    intro p hp
    have := hp.2
    simp only [Probe.keeps, Bool.and_eq_true, Bool.not_eq_true', decide_eq_false_iff_not] at this
    simpa using this.1

/-! ## Claims on reaping -/

/-- C15: reaping is idempotent. For every registry and every process-status
oracle that is the same in the two calls, running
`cleanupBackgroundProcesses` twice in a row leaves the registry after the
second call equal to the registry after the first, and the second call prints
no completion message. This holds for the loop of `Shell` and for the loop of
`CommandExecutor`. -/
theorem cleanup_idempotent (w : Pid → Probe) (r : List Pid) :
    ((cleanupBackgroundProcesses (fun _ => w)
        (cleanupBackgroundProcesses (fun _ => w) r).bgProcesses).bgProcesses =
      (cleanupBackgroundProcesses (fun _ => w) r).bgProcesses ∧
     (cleanupBackgroundProcesses (fun _ => w)
        (cleanupBackgroundProcesses (fun _ => w) r).bgProcesses).out = []) ∧
    ((CommandExecutor.cleanupBackgroundProcesses (fun _ => w)
        (CommandExecutor.cleanupBackgroundProcesses (fun _ => w) r).bgProcesses).bgProcesses =
      (CommandExecutor.cleanupBackgroundProcesses (fun _ => w) r).bgProcesses ∧
     (CommandExecutor.cleanupBackgroundProcesses (fun _ => w)
        (CommandExecutor.cleanupBackgroundProcesses (fun _ => w) r).bgProcesses).out = []) :=
  ⟨reap_twice completedLine w r, reap_twice CommandExecutor.completedLine w r⟩

/-- C16: reaping removes exactly the finished entries. When every probe
answers `0` (still running), a positive value (completed) or `-1` (no such
process), the registry after `cleanupBackgroundProcesses` is the subsequence
of `r` of exactly the entries whose probe returned `0`, in their original
order, and every entry is probed exactly once, in order: the
erase-while-iterating loop skips none. This holds for the loop of `Shell` and
for the loop of `CommandExecutor`. -/
theorem cleanup_removes_finished (waitpid : Nat → Pid → Probe) (r : List Pid)
    (hrange : ∀ (k : Nat) (p : Pid), (waitpid k p).result = 0 ∨ (waitpid k p).result > 0 ∨
      (waitpid k p).result = -1) :
    ((cleanupBackgroundProcesses waitpid r).bgProcesses =
        (r.enum.filter (fun e => decide ((waitpid e.1 e.2).result = 0))).map Prod.snd ∧
     (cleanupBackgroundProcesses waitpid r).probed = r) ∧
    ((CommandExecutor.cleanupBackgroundProcesses waitpid r).bgProcesses =
        (r.enum.filter (fun e => decide ((waitpid e.1 e.2).result = 0))).map Prod.snd ∧
     (CommandExecutor.cleanupBackgroundProcesses waitpid r).probed = r) := by
  have hk : (fun e : Nat × Pid => (waitpid e.1 e.2).keeps) =
      (fun e : Nat × Pid => decide ((waitpid e.1 e.2).result = 0)) := by
    funext e
    rcases hrange e.1 e.2 with h | h | h
    · simp [Probe.keeps, h]
    · have h0 : (waitpid e.1 e.2).result ≠ 0 := by omega
      simp [Probe.keeps, h, h0]
    · simp [Probe.keeps, h]
  have h1 := reapLoop_spec completedLine waitpid r [] [] []
  have h2 := reapLoop_spec CommandExecutor.completedLine waitpid r [] [] []
  simp only [List.nil_append, List.length_nil, hk] at h1 h2
  simp only [cleanupBackgroundProcesses, CommandExecutor.cleanupBackgroundProcesses, h1, h2,
    List.enum]
  exact ⟨⟨trivial, trivial⟩, trivial, trivial⟩

theorem cleanup_removes_finished_witness :
    (cleanupBackgroundProcesses
        (fun k _ => { result := if k = 1 then 4207 else if k = 2 then -1 else 0, exited := none })
        [4100, 4207, 4311, 4400]).bgProcesses = [4100, 4400] ∧
    (cleanupBackgroundProcesses
        (fun k _ => { result := if k = 1 then 4207 else if k = 2 then -1 else 0, exited := none })
        [4100, 4207, 4311, 4400]).probed = [4100, 4207, 4311, 4400] :=
  have h := cleanup_removes_finished
    (fun k _ => { result := if k = 1 then 4207 else if k = 2 then -1 else 0, exited := none })
    [4100, 4207, 4311, 4400]
    (by
      intro k p
      by_cases h1 : k = 1
      · simp [h1]
      · by_cases h2 : k = 2
        · simp [h2]
        · simp [h1, h2])
  ⟨h.1.1.trans (by decide), h.1.2⟩

/-! ## Claims on the history and on termination -/

theorem expandIter_eq (env vars : VarMap) (fuel : Nat) :
    ∀ st : ExpandState, remaining st < fuel →
      expandIter env vars fuel st = some (expandLoop env vars st) := by
  induction fuel with
  | zero => intro st h; omega
  | succ n ih =>
    intro st h
    cases hs : expandStep env vars st with
    | none => simp [expandIter, hs, expandLoop_none hs]
    | some st' =>
      have hlt := expandStep_remaining hs
      simp [expandIter, hs, expandLoop_some hs, ih st' (by omega)]

/-- C18: the latent fault of `addToHistory`. For every non-empty command,
with an empty history the call evaluates `commandHistory.back()` before any
emptiness check, which has no value (`none`); the loop of `Shell::run` does so
on the first line that is not blank, since the history starts empty. With a
non-empty history the command is appended exactly when it differs from the
last entry, whatever the earlier entries are (the oldest entry is dropped
once more than `MAX_HISTORY` are held). -/
theorem addToHistory_latent_fault (command : Str) (hne : command ≠ []) :
    addToHistory command [] = none ∧
    (isEmpty command = false → historyStep command [] = none) ∧
    (∀ (older : List Str) (back : Str),
      addToHistory command (older ++ [back]) =
        some (if command ≠ back then
            (if older.length + 2 > MAX_HISTORY then (older ++ [back, command]).eraseIdx 0
             else older ++ [back, command])
          else older ++ [back])) := by
  have hemp : command.isEmpty = false := by
    cases command with
    | nil => exact absurd rfl hne
    | cons c cs => rfl
  refine ⟨by simp [addToHistory, hemp], ?_, ?_⟩
  · intro h
    simp [historyStep, h, addToHistory, hemp]
  · intro older back
    by_cases hc : command = back
    · simp [addToHistory, hemp, hc]
    · by_cases hl : older.length + 2 > MAX_HISTORY
      · have hl' : MAX_HISTORY < older.length + 1 + 1 := by omega
        simp [addToHistory, hemp, hc, hl, hl']
      · have hl' : ¬ MAX_HISTORY < older.length + 1 + 1 := by omega
        simp [addToHistory, hemp, hc, hl, hl']

theorem addToHistory_latent_fault_witness :
    addToHistory "ls -l".toList [] = none ∧
    (isEmpty "ls -l".toList = false → historyStep "ls -l".toList [] = none) ∧
    (∀ (older : List Str) (back : Str),
      addToHistory "ls -l".toList (older ++ [back]) =
        some (if "ls -l".toList ≠ back then
            (if older.length + 2 > MAX_HISTORY then
              (older ++ [back, "ls -l".toList]).eraseIdx 0
             else older ++ [back, "ls -l".toList])
          else older ++ [back])) :=
  addToHistory_latent_fault "ls -l".toList (by decide)

/-- C19: `expandVariables` terminates on every input line and every variable
assignment. The number of characters from the scan position to the end of
the working string strictly decreases on every iteration of the loop, so the
loop started on `input` exits within `input.length + 1` iterations with the
value of `expandVariables`. The three delicate cases are instances: an empty
value (the scan position stays where it is), a value longer than the
reference, and a value that contains `'$'`. -/
theorem expandVariables_terminates (env vars : VarMap) (input : Str) :
    expandIter env vars (input.length + 1) { result := input, pos := 0 } =
      some (expandVariables env vars input) ∧
    (∀ st st' : ExpandState, expandStep env vars st = some st' →
      remaining st' < remaining st) ∧
    expandStep (fun _ => none) (fun _ => none) { result := "a$X b".toList, pos := 0 } =
      some { result := "a b".toList, pos := 1 } ∧
    expandStep (fun _ => none) (fun _ => some "long value".toList)
        { result := "a$X b".toList, pos := 0 } =
      some { result := "along value b".toList, pos := 11 } ∧
    expandStep (fun _ => none) (fun _ => some "$X$X".toList)
        { result := "a$X b".toList, pos := 0 } =
      some { result := "a$X$X b".toList, pos := 5 } := by
  refine ⟨?_, fun st st' h => expandStep_remaining h, by decide, by decide, by decide⟩
  exact expandIter_eq env vars (input.length + 1) _ (by simp [remaining])

end Shell
